import Mathlib

/-!
Verification of the formatting core of an ABAP prettier plugin.

The definitions below are a shallow embedding of the plugin's TypeScript
sources: the base spacing rule (`needsSpaceBefore`), the comment-sign
normalization (`formatCommentValue`), keyword casing (`applyKeywordCase`),
the needless-spaces alignment compressor (`computeNeedlessSpacesOverrides`
and its helpers), the closing-brackets repositioner
(`applyClosingBracketsPosition`, `mergeTrailingComments`,
`forcePeriodLine`), the indentation engine (`computeIndentationLevels`,
`findSelectBlocks`), the statement renderer (`printStatementLines`,
`getSpacesBeforeToken`) and the fallback AST builder
(`buildFallbackStatements`).

Modelling conventions:
  * JavaScript strings are Lean `String`s; the regex-based trimming
    helpers are re-implemented over `List Char` with the JS `\s` class.
  * Object identity (used by the `WeakMap`/`WeakSet` side tables) is
    modelled by a numeric `id` field on tokens; tokens of a program are
    built with pairwise distinct ids.
  * In-place mutation of token/statement fields is modelled by pure
    updates (`updAt`); the only mutable token field is
    `hasFollowingLineBreak`, mirroring the source.
  * `WeakMap` side tables are association lists keyed by token id or
    statement index; `set` replaces an existing binding.
  * Bounded `while` loops whose index provably advances each iteration
    are written with an explicit fuel that is always sufficient
    (`length + 1`), so that all definitions compute by `decide`/`rfl`.
-/

/-- The character class matched by the JavaScript regex `\s` (with the
`u` flag): ASCII whitespace, NBSP, the Unicode space separators, line and
paragraph separators, and the BOM. -/
def isJsWhitespace (c : Char) : Bool :=
  c = ' ' || c = '\t' || c = '\n' || c = '\x0b' || c = '\x0c' || c = '\r' ||
  c = ' ' || c = Char.ofNat 0x1680 ||
  (Char.ofNat 0x2000 ≤ c && c ≤ Char.ofNat 0x200a) ||
  c = Char.ofNat 0x2028 || c = Char.ofNat 0x2029 || c = Char.ofNat 0x202f ||
  c = Char.ofNat 0x205f || c = Char.ofNat 0x3000 || c = Char.ofNat 0xfeff

/-- The comment sign character `"`. -/
def commentSignChar : Char := Char.ofNat 34

/-- The single-quote character used by ABAP numeric literals. -/
def singleQuoteChar : Char := Char.ofNat 39

/-- Drop JS whitespace from the front of a character list
(JavaScript `trimStart` / the regex `^\s*`). -/
def ltrimL (l : List Char) : List Char := l.dropWhile isJsWhitespace

/-- Drop JS whitespace from the back of a character list
(JavaScript `trimEnd` / the regex `\s+$`). -/
def rtrimL (l : List Char) : List Char := (ltrimL l.reverse).reverse

/-- Both-ends JS trim on character lists. -/
def trimL (l : List Char) : List Char := rtrimL (ltrimL l)

/-- JavaScript `String.prototype.trimStart`. -/
def jsLtrim (s : String) : String := (ltrimL s.toList).asString

/-- JavaScript replacement of the trailing-whitespace regex `\s+$` by
the empty string (also `trimEnd`). -/
def jsRtrim (s : String) : String := (rtrimL s.toList).asString

/-- JavaScript `String.prototype.trim`. -/
def jsTrim (s : String) : String := (trimL s.toList).asString

/-- JavaScript `toUpperCase` on the ASCII range (token texts are ASCII),
written over character lists so that it computes by kernel reduction. -/
def jsToUpper (s : String) : String := (s.toList.map Char.toUpper).asString

/-- JavaScript `toLowerCase` on the ASCII range. -/
def jsToLower (s : String) : String := (s.toList.map Char.toLower).asString

/-- Replace the element at index `n` by `g` applied to it; out-of-range
indices leave the list unchanged.  This models an in-place field update
of the `n`-th object of a JavaScript array. -/
def updAt {α : Type} : List α → Nat → (α → α) → List α
  | [], _, _ => []
  | a :: l, 0, g => g a :: l
  | a :: l, n + 1, g => a :: updAt l n g

/-- Stable insertion of `a` into `l`: `a` goes in front of the first
element `b` with `le a b`. -/
def insertSorted {α : Type} (le : α → α → Bool) (a : α) : List α → List α
  | [] => [a]
  | b :: bs => if le a b then a :: b :: bs else b :: insertSorted le a bs

/-- Stable sort by repeated insertion.  For a total preorder `le` this
computes the same list as any stable sort, in particular as the
(specified-stable) JavaScript `Array.prototype.sort`. -/
def stableSort {α : Type} (le : α → α → Bool) (l : List α) : List α :=
  l.foldr (insertSorted le) []

/-! ## Core data model (src/parsers/types.ts) -/

/-- Token roles (`TokenRole` in types.ts). -/
inductive TokenRole where
  | word | punctuation | comment | pragma | str | colon | arrow | unknown
  deriving DecidableEq, Repr

/-- Source location of a token or statement; character offsets are not
needed by the formatting rules and are omitted. -/
structure Loc where
  startLine : Nat
  startColumn : Nat
  endLine : Nat
  endColumn : Nat
  deriving DecidableEq, Repr

/-- A token (`AbapToken`).  `id` models JavaScript object identity (used
as `WeakMap` key); the ids of a program's tokens are pairwise distinct. -/
structure Tok where
  id : Nat
  role : TokenRole
  text : String
  upper : String
  loc : Loc
  hasFollowingLineBreak : Bool
  deriving DecidableEq, Repr

/-- A comment (`AbapComment`). -/
structure AComment where
  value : String
  inline : Bool
  loc : Loc
  deriving DecidableEq, Repr

/-- Keyword-case option values. -/
inductive KwCase where
  | upper | lower
  deriving DecidableEq, Repr

/-- Plugin options (`AbapPluginOptions`); `none` models an absent
(undefined) option, mirroring the `===`/`??` checks of the source. -/
structure Options where
  abapKeywordCase : Option KwCase
  abapSpaceBeforePeriod : Option Bool
  abapSpaceBeforeCommentSign : Option Bool
  abapSpaceAfterCommentSign : Option Bool
  tabWidth : Option Nat
  deriving DecidableEq, Repr

/-- The option values prettier injects by default
(`src/index.ts` option declarations). -/
def defaultOptions : Options :=
  { abapKeywordCase := some .upper
    abapSpaceBeforePeriod := some false
    abapSpaceBeforeCommentSign := some true
    abapSpaceAfterCommentSign := some true
    tabWidth := some 2 }

/-- A statement (`AbapStatement`) as consumed by the layout rules.
`chain` holds the entry token lists of a colon chain; a `none` entry is a
standalone-comment entry (no token list). -/
structure PStmt where
  tokens : List Tok
  chain : Option (List (Option (List Tok)))
  trailingComment : Option AComment
  indentLevel : Int
  loc : Loc
  deriving DecidableEq, Repr

/-! ## SpaceAroundCommentSignRule (formatCommentValue) -/

/-- The regex `^[A-Za-z0-9]$` of the rule. -/
def isLetterOrDigit (c : Char) : Bool :=
  ('A' ≤ c && c ≤ 'Z') || ('a' ≤ c && c ≤ 'z') || ('0' ≤ c && c ≤ '9')

/-- Core of `formatCommentValue` on character lists: if the option
`abapSpaceAfterCommentSign` is not literally `false`, and the first
non-whitespace character is the comment sign followed directly by a
letter or digit, insert exactly one space after the sign. -/
def formatCommentValueL (sac : Option Bool) (raw : List Char) : List Char :=
  if sac = some false then raw
  else
    let leading := raw.takeWhile isJsWhitespace
    let rest := raw.dropWhile isJsWhitespace
    match rest with
    | [] => raw
    | c :: rest' =>
      if c ≠ commentSignChar then raw
      else
        match rest' with
        | [] => raw
        | d :: _ =>
          if ¬ isLetterOrDigit d then raw
          else leading ++ c :: ' ' :: rest'

/-- `formatCommentValue` of spaceAroundCommentSignRule, on strings. -/
def formatCommentValue (o : Options) (rawValue : String) : String :=
  (formatCommentValueL o.abapSpaceAfterCommentSign rawValue.toList).asString

/-- `needsSpaceBeforeCommentSign` of spaceAroundCommentSignRule. -/
def needsSpaceBeforeCommentSign (o : Options) : Bool :=
  o.abapSpaceBeforeCommentSign ≠ some false

theorem takeWhile_append_of_forall {p : Char → Bool} :
    ∀ (l r : List Char), (∀ c ∈ l, p c = true) → ∀ a, p a = false →
      (l ++ a :: r).takeWhile p = l := by
  intro l r hl a ha
  induction l with
  | nil => simp [List.takeWhile, ha]
  | cons c cs ih =>
    have hc : p c = true := hl c (List.mem_cons_self c cs)
    simp only [List.cons_append, List.takeWhile, hc]
    have : ∀ c ∈ cs, p c = true := fun x hx => hl x (List.mem_cons_of_mem c hx)
    simp [ih this]

theorem dropWhile_append_of_forall {p : Char → Bool} :
    ∀ (l r : List Char), (∀ c ∈ l, p c = true) → ∀ a, p a = false →
      (l ++ a :: r).dropWhile p = a :: r := by
  intro l r hl a ha
  induction l with
  | nil => simp [List.dropWhile, ha]
  | cons c cs ih =>
    have hc : p c = true := hl c (List.mem_cons_self c cs)
    simp only [List.cons_append, List.dropWhile, hc]
    have : ∀ c ∈ cs, p c = true := fun x hx => hl x (List.mem_cons_of_mem c hx)
    simpa using ih this

theorem mem_takeWhile_sat {p : Char → Bool} :
    ∀ (l : List Char) (c : Char), c ∈ l.takeWhile p → p c = true := by
  intro l
  induction l with
  | nil => intro c h; simp [List.takeWhile] at h
  | cons a as ih =>
    intro c h
    by_cases hp : p a = true
    · simp only [List.takeWhile, hp] at h
      rcases List.mem_cons.mp h with h | h
      · exact h ▸ hp
      · exact ih c h
    · simp only [List.takeWhile] at h
      rw [Bool.not_eq_true] at hp
      rw [hp] at h
      simp at h

theorem formatCommentValueL_idem (sac : Option Bool) (raw : List Char) :
    formatCommentValueL sac (formatCommentValueL sac raw) =
      formatCommentValueL sac raw := by
  by_cases hsac : sac = some false
  · simp [formatCommentValueL, hsac]
  · -- analyse the first application
    unfold formatCommentValueL
    simp only [hsac, if_false]
    rcases hdrop : raw.dropWhile isJsWhitespace with _ | ⟨c, rest'⟩
    · simp [formatCommentValueL, hsac, hdrop]
    · by_cases hc : c = commentSignChar
      · rcases hrest : rest' with _ | ⟨d, tail⟩
        · simp [formatCommentValueL, hsac, hdrop, hc, hrest]
        · by_cases hd : isLetterOrDigit d = true
          · -- the interesting branch: a space is inserted
            simp only [hc, hrest, hd, ite_true, ite_false, not_true,
              Bool.not_eq_true, ne_eq, not_not]
            have hlead : ∀ x ∈ raw.takeWhile isJsWhitespace,
                isJsWhitespace x = true := fun x hx => mem_takeWhile_sat raw x hx
            have hq : isJsWhitespace commentSignChar = false := by decide
            have htake := takeWhile_append_of_forall
              (raw.takeWhile isJsWhitespace) (' ' :: d :: tail) hlead
              commentSignChar hq
            have hdrop2 := dropWhile_append_of_forall
              (raw.takeWhile isJsWhitespace) (' ' :: d :: tail) hlead
              commentSignChar hq
            have hsp : isLetterOrDigit ' ' = false := by decide
            rw [hdrop2]
            simp [hsp]
          · simp only [Bool.not_eq_true] at hd
            simp [formatCommentValueL, hsac, hdrop, hc, hrest, hd]
      · simp [formatCommentValueL, hsac, hdrop, hc]

/-- C10 — Comment-sign spacing normalization is idempotent: applying
`formatCommentValue` twice with the same options yields the same string
as applying it once, for every comment string and option configuration
(after insertion the character following the sign is a space, which is
not alphanumeric, so the second pass changes nothing). -/
theorem formatCommentValue_idempotent (o : Options) (v : String) :
    formatCommentValue o (formatCommentValue o v) = formatCommentValue o v := by
  unfold formatCommentValue
  have h : (List.asString (formatCommentValueL o.abapSpaceAfterCommentSign
      v.toList)).toList = formatCommentValueL o.abapSpaceAfterCommentSign
      v.toList := rfl
  rw [h, formatCommentValueL_idem]

/-! ## SpaceBeforePeriodRule (needsSpaceBefore) -/

/-- Punctuation trimmed by the rule (`PUNCTUATION_TO_TRIM`). -/
def punctuationToTrim : List String := [".", ","]

/-- The base spacing rule `needsSpaceBefore` of spaceBeforePeriodRule.ts,
translated branch for branch. -/
def needsSpaceBefore (current : Tok) (previous : Option Tok) (o : Options) : Bool :=
  match previous with
  | none => false
  | some previous =>
    if jsTrim current.text = "(" then false
    else if jsTrim current.text = ")" then true
    else if current.role = .punctuation ∧ punctuationToTrim.contains current.text then
      o.abapSpaceBeforePeriod = some true
    else if current.role = .comment then needsSpaceBeforeCommentSign o
    else if current.role = .arrow ∨ current.text = "->" ∨ current.text = "=>" then false
    else if current.text = ")" ∨ current.text = "]" ∨ current.text = ":" then false
    else if current.role = .punctuation then false
    else if current.text = "," ∨ current.text = "." then false
    else if previous.text = "(" ∨ previous.text = "[" ∨ previous.text = ":" ∨
        previous.text = "-" ∨ previous.text = "->" ∨ previous.text = "=>" then false
    else if previous.role = .arrow then false
    else if current.text = "=" ∧ (previous.text = "+" ∨ previous.text = "-" ∨
        previous.text = "*" ∨ previous.text = "/" ∨ previous.text = "&&") then false
    else true

/-! ## UpperAndLowerCaseRule (applyKeywordCase)

The keyword dictionary itself comes from the external collaborator
(`ArtifactsABAP.getKeywords()`); the spec places keyword-case lookup (a
static dictionary) out of scope, so `applyKeywordCase` is parametrized
by the dictionary `kws` (a list of uppercased keyword strings). -/

/-- `applyKeywordCase` of upperAndLowerCaseRule.ts, with the external
static keyword dictionary passed in as `kws`. -/
def applyKeywordCase (kws : List String) (token : Tok) (o : Options) : String :=
  let target := o.abapKeywordCase.getD .upper
  if token.role ≠ .word then
    if token.role = .pragma then
      if target = .lower then jsToLower token.text else jsToUpper token.text
    else token.text
  else if ¬ kws.contains token.upper then token.text
  else if target = .lower then jsToLower token.upper else token.upper

/-! ## Renderer spacing (printers/abap.ts) -/

/-- `computeOriginalSpaces` of printers/abap.ts: the column gap between
the previous token's end and this token's start on the same rendered
source line, clamped to 0 (token locations are total in the data model,
so the defensive missing-loc branches always pass). -/
def computeOriginalSpaces (token : Tok) (previous : Option Tok) : Nat :=
  match previous with
  | none => 0
  | some p =>
    if p.loc.endLine ≠ token.loc.startLine then 0
    else Int.toNat ((token.loc.startColumn : Int) - p.loc.endColumn - 1)

/-- `getSpacesBeforeToken` of printers/abap.ts.  `ov` is the
needless-spaces override table lookup (`activeNeedlessSpaces?.get`),
keyed by token identity. -/
def getSpacesBeforeToken (ov : Nat → Option Nat) (token : Tok)
    (previous : Option Tok) (o : Options) : Nat :=
  let minSpaces : Nat := if needsSpaceBefore token previous o then 1 else 0
  match ov token.id with
  | some v => v
  | none =>
    if minSpaces = 0 then 0
    else max (computeOriginalSpaces token previous) minSpaces

/-- C9 — With a defined previous token, for every option configuration:
a token whose trimmed text is `(` never requires the mandatory space
(`needsSpaceBefore` is false) and a token whose trimmed text is `)`
always requires it; consequently, absent an override, the renderer
places 0 spaces before an opening parenthesis and at least one space
before a closing parenthesis. -/
theorem paren_spacing (current previous : Tok) (o : Options)
    (ov : Nat → Option Nat) (hov : ov current.id = none) :
    (jsTrim current.text = "(" →
      needsSpaceBefore current (some previous) o = false ∧
      getSpacesBeforeToken ov current (some previous) o = 0) ∧
    (jsTrim current.text = ")" →
      needsSpaceBefore current (some previous) o = true ∧
      1 ≤ getSpacesBeforeToken ov current (some previous) o) := by
  constructor
  · intro h
    have hrule : needsSpaceBefore current (some previous) o = false := by
      unfold needsSpaceBefore
      simp [h]
    refine ⟨hrule, ?_⟩
    unfold getSpacesBeforeToken
    simp [hrule, hov]
  · intro h
    have hne : jsTrim current.text ≠ "(" := by
      rw [h]; decide
    have hrule : needsSpaceBefore current (some previous) o = true := by
      unfold needsSpaceBefore
      simp [h, hne]
    refine ⟨hrule, ?_⟩
    unfold getSpacesBeforeToken
    simp [hrule, hov]

/-- Closed instance of `paren_spacing`: concrete `(` and `)` tokens after
an identifier, with the default options and no overrides. -/
theorem paren_spacing_witness :
    needsSpaceBefore
      ⟨1, .punctuation, "(", "(", ⟨1, 3, 1, 4⟩, false⟩
      (some ⟨0, .word, "f", "F", ⟨1, 0, 1, 3⟩, false⟩) defaultOptions = false ∧
    getSpacesBeforeToken (fun _ => none)
      ⟨2, .punctuation, ")", ")", ⟨1, 5, 1, 6⟩, false⟩
      (some ⟨1, .punctuation, "(", "(", ⟨1, 3, 1, 4⟩, false⟩)
      defaultOptions ≥ 1 := by
  refine ⟨?_, ?_⟩
  · exact ((paren_spacing ⟨1, .punctuation, "(", "(", ⟨1, 3, 1, 4⟩, false⟩
      ⟨0, .word, "f", "F", ⟨1, 0, 1, 3⟩, false⟩ defaultOptions
      (fun _ => none) rfl).1 (by decide)).1
  · exact ((paren_spacing ⟨2, .punctuation, ")", ")", ⟨1, 5, 1, 6⟩, false⟩
      ⟨1, .punctuation, "(", "(", ⟨1, 3, 1, 4⟩, false⟩ defaultOptions
      (fun _ => none) rfl).2 (by decide)).2

/-! ## NeedlessSpacesRule (the alignment compressor)

Shallow embedding of needlessSpacesRule.ts.  `WeakSet`/`WeakMap` side
tables (`processedTokens`, `groupedTokens`, `overrides`) are lists of
token ids; the `while` loops over a signature's token list advance
their index every iteration, so they are written with fuel
`length + 1`, which is always sufficient. -/

/-- Token classification of the compressor (`TokenType`). -/
inductive TokenType where
  | COLON | COMMA | PERIOD | ASSIGNMENT_OP | COMPARISON_OP
  | COMMENT | PRAGMA | LITERAL | IDENTIFIER
  deriving DecidableEq, Repr

/-- The set `ASSIGNMENT_OPERATORS` (including its dead trailing-space
member, which no trimmed text can ever equal). -/
def assignmentOperators : List String :=
  ["=", ":=", "+=", "-=", "*=", "/=", "&&=", "&&= ", "?="]

/-- The set `COMPARISON_OPERATORS`. -/
def comparisonOperators : List String :=
  ["=", "==", "<>", "!=", "<", "<=", ">", ">="]

def isDigitChar (c : Char) : Bool := '0' ≤ c && c ≤ '9'

def isDigitOrDot (c : Char) : Bool := isDigitChar c || c = '.'

/-- Matcher for the optional fraction suffix `(?:\.\d+)?$` of the
numeric-literal regex: either the end of input or a dot followed by one
or more digits up to the end. -/
def matchFracOpt : List Char → Bool
  | [] => true
  | c :: rest =>
    if c = '.' then
      ! (rest.takeWhile isDigitChar).isEmpty &&
        (rest.dropWhile isDigitChar).isEmpty
    else false

/-- Matcher for the anchored regex `^[+-]?(?:\d+|'[\d.]+')(?:\.\d+)?$`
(`NUMERIC_LITERAL`).  Both alternations are followed by characters that
cannot extend them, so maximal munch coincides with the regex
semantics. -/
def numericLiteralMatch (cs : List Char) : Bool :=
  let body := match cs with
    | c :: rest => if c = '+' ∨ c = '-' then rest else cs
    | [] => cs
  match body with
  | [] => false
  | c :: inner =>
    if isDigitChar c then matchFracOpt (body.dropWhile isDigitChar)
    else if c = singleQuoteChar then
      match inner.dropWhile isDigitOrDot with
      | q :: rest2 =>
        ! (inner.takeWhile isDigitOrDot).isEmpty &&
          q = singleQuoteChar && matchFracOpt rest2
      | [] => false
    else false

def isAssignmentOperatorToken (t : Tok) : Bool :=
  assignmentOperators.contains (jsTrim t.text)

def isComparisonOperatorToken (t : Tok) : Bool :=
  comparisonOperators.contains (jsTrim t.text)

def isNumericLiteralToken (t : Tok) : Bool :=
  numericLiteralMatch (trimL t.text.toList)

/-- `classifyTokenType` of needlessSpacesRule.ts. -/
def classifyTokenType (t : Tok) : TokenType :=
  if t.text = ":" then .COLON
  else if t.text = "," then .COMMA
  else if t.text = "." then .PERIOD
  else if isAssignmentOperatorToken t then .ASSIGNMENT_OP
  else if isComparisonOperatorToken t then .COMPARISON_OP
  else if t.role = .comment then .COMMENT
  else if t.role = .pragma then .PRAGMA
  else if t.role = .str ∨ isNumericLiteralToken t then .LITERAL
  else .IDENTIFIER

/-- `getTokenLength`: width from the (always present) location. -/
def getTokenLength (t : Tok) : Nat :=
  max 1 (t.loc.endColumn - t.loc.startColumn)

/-- `getNumericAlignmentIndex`: column offset of the decimal point (one
before the dot) or of the last digit, within the trimmed text. -/
def getNumericAlignmentIndex (text : String) : Nat :=
  let trimmed := trimL text.toList
  match trimmed.findIdx? (fun c => c = '.') with
  | some dotIndex => dotIndex - 1
  | none =>
    match (List.range trimmed.length).reverse.find? (fun i =>
        match trimmed.get? i with
        | some ch => ch ≠ '-' && ch ≠ singleQuoteChar
        | none => false) with
    | some i => i
    | none => trimmed.length

/-- `isSequenceBridgeKeyword`: else/elseif/when lines may interrupt an
alignment run without breaking it. -/
def isSequenceBridgeKeyword (t : Tok) : Bool :=
  t.upper = "ELSE" || t.upper = "ELSEIF" || t.upper = "WHEN"

/-- The per-token position record (`TokenPos`). -/
structure TokenPos where
  token : Tok
  startColumn : Nat
  endColumn : Nat
  lineNumber : Nat
  commandNumber : Nat
  spacesLeft : Nat
  isFirstInLine : Bool
  startIndexInLine : Nat
  prevEndColumn : Int
  tokenType : TokenType
  prevTokenType : Option TokenType
  deriving DecidableEq, Repr

/-- Build the `TokenPos` for one token given the previous token's
position record within the same token list (the body of the
`collectFromTokens` loop). -/
def mkTokenPos (cmd : Nat) (previous : Option TokenPos) (tok : Tok) : TokenPos :=
  let startColumn := tok.loc.startColumn
  let endColumn := max startColumn tok.loc.endColumn
  let lineNumber := tok.loc.startLine
  let isNewLine := match previous with
    | none => true
    | some p => p.lineNumber ≠ lineNumber
  let prevEndColumn : Int := match previous with
    | none => (startColumn : Int) - 1
    | some p => if p.lineNumber ≠ lineNumber then (startColumn : Int) - 1
                else (p.endColumn : Int)
  let spacesLeft : Nat := match previous with
    | none => startColumn
    | some p => if p.lineNumber ≠ lineNumber then startColumn
                else Int.toNat ((startColumn : Int) - p.endColumn - 1)
  { token := tok, startColumn, endColumn, lineNumber, commandNumber := cmd,
    spacesLeft, isFirstInLine := isNewLine, startIndexInLine := startColumn,
    prevEndColumn, tokenType := classifyTokenType tok,
    prevTokenType := previous.map (fun p => p.tokenType) }

/-- `collectFromTokens`: position records for one token list, in order
(`previous` resets per list). -/
def collectFromTokens (cmd : Nat) (tokens : List Tok) : List TokenPos :=
  (tokens.foldl (fun (acc : List TokenPos × Option TokenPos) tok =>
    let tp := mkTokenPos cmd acc.2 tok
    (acc.1 ++ [tp], some tp)) ([], none)).1

/-- `collectTokenPositions` flattened to the ordered list of all
position records: statement tokens first, then each chain entry's
tokens, one command number per statement. -/
def collectAll (stmts : List PStmt) : List TokenPos :=
  (stmts.foldl (fun (acc : List TokenPos × Nat) st =>
    let acc1 := acc.1 ++ collectFromTokens acc.2 st.tokens
    let acc1 := match st.chain with
      | none => acc1
      | some entries => entries.foldl (fun a e =>
          match e with
          | some toks => a ++ collectFromTokens acc.2 toks
          | none => a) acc1
    (acc1, acc.2 + 1)) ([], 0)).1

/-- The x-position signatures a token registers under: the doubled raw
column, plus the odd derived signature for assignment/comparison
operators (right edge) and numeric literals (alignment digit). -/
def xKeysOf (tp : TokenPos) : List Nat :=
  let base := [2 * tp.startIndexInLine]
  if isAssignmentOperatorToken tp.token then
    base ++ [2 * (tp.startIndexInLine + getTokenLength tp.token - 1) + 1]
  else if isComparisonOperatorToken tp.token then
    base ++ [2 * (tp.startIndexInLine + getTokenLength tp.token - 1) + 1]
  else if isNumericLiteralToken tp.token then
    base ++ [2 * (tp.startIndexInLine + getNumericAlignmentIndex tp.token.text) + 1]
  else base

/-- `addTokenPos`: append under a key of the signature multimap
(insertion-ordered association list, like a JS `Map`). -/
def addXPos (m : List (Nat × List TokenPos)) (key : Nat) (tp : TokenPos) :
    List (Nat × List TokenPos) :=
  if (List.lookup key m).isSome then
    m.map (fun p => if p.1 = key then (p.1, p.2 ++ [tp]) else p)
  else m ++ [(key, [tp])]

/-- The signature multimap `tokensOfXPos`, derived from the collected
positions in their collection order. -/
def buildXPosMap (tps : List TokenPos) : List (Nat × List TokenPos) :=
  tps.foldl (fun m tp => (xKeysOf tp).foldl (fun m k => addXPos m k tp) m) []

/-- The `firstTokenOfLine` map: for each line, the first collected
line-leading position record (set-if-absent). -/
def buildFirstTokenOfLine (tps : List TokenPos) : List (Nat × TokenPos) :=
  tps.foldl (fun m tp =>
    if tp.isFirstInLine ∧ (List.lookup tp.lineNumber m).isNone then
      m ++ [(tp.lineNumber, tp)]
    else m) []

/-- The comparator `compareTokenPos` as a ≤-style Boolean relation:
order by line, then statement ordinal, then column. -/
def cmpTokenPosLe (a b : TokenPos) : Bool :=
  if a.lineNumber ≠ b.lineNumber then a.lineNumber < b.lineNumber
  else if a.commandNumber ≠ b.commandNumber then a.commandNumber < b.commandNumber
  else a.startColumn ≤ b.startColumn

/-- `tokenTypesMatch`: separators, operators, comments and pragmas must
match exactly; identifiers and literals are cross-compatible. -/
def tokenTypesMatch (t1 t2 : TokenType) : Bool :=
  if t1 = .COLON ∨ t2 = .COLON then t1 = t2
  else if t1 = .COMMA ∨ t2 = .COMMA then t1 = t2
  else if t1 = .PERIOD ∨ t2 = .PERIOD then t1 = t2
  else if t1 = .ASSIGNMENT_OP ∨ t2 = .ASSIGNMENT_OP then t1 = t2
  else if t1 = .COMPARISON_OP ∨ t2 = .COMPARISON_OP then t1 = t2
  else if t1 = .COMMENT ∨ t2 = .COMMENT then t1 = t2
  else if t1 = .PRAGMA ∨ t2 = .PRAGMA then t1 = t2
  else true

/-- `tokenBreaksSequence`: a candidate breaks the run if a non-bridging
line starts left of the signature column in the gap, or (unless both
follow an assignment operator) the classifications are incompatible. -/
def tokenBreaksSequence (first prev test : TokenPos) (xPos : Nat)
    (fol : List (Nat × TokenPos)) : Bool :=
  let gapBreak :=
    if first.tokenType ≠ .COMMENT ∧ prev.commandNumber ≠ test.commandNumber ∧
        prev.lineNumber + 1 < test.lineNumber then
      (List.range' (prev.lineNumber + 1) (test.lineNumber - prev.lineNumber - 1)).any
        (fun line =>
          match List.lookup line fol with
          | none => false
          | some f => decide (f.startIndexInLine < xPos) &&
              ! isSequenceBridgeKeyword f.token)
    else false
  if gapBreak then true
  else if first.prevTokenType = some .ASSIGNMENT_OP ∧
      test.prevTokenType = some .ASSIGNMENT_OP then false
  else if tokenTypesMatch first.tokenType test.tokenType = false then true
  else false

/-- State of the compressor: `processedTokens`, the override table, and
`groupedTokens`, all keyed by token id. -/
structure NSState where
  processed : List Nat
  overrides : List (Nat × Nat)
  grouped : List Nat
  deriving DecidableEq, Repr

/-- `WeakMap.set`: replace an existing binding or append a new one. -/
def setOv (l : List (Nat × Nat)) (k v : Nat) : List (Nat × Nat) :=
  if l.any (fun p => p.1 = k) then
    l.map (fun p => if p.1 = k then (k, v) else p)
  else l ++ [(k, v)]

/-- The run `tokenPosList[startIndex ..< endIndex]`. -/
def runSlice (tl : List TokenPos) (s e : Nat) : List TokenPos :=
  (tl.drop s).take (e - s)

/-- Per-member slack: beyond the anchor for derived signatures, beyond
the mandatory single space otherwise. -/
def slackOf (isSp : Bool) (maxPrev : Int) (tp : TokenPos) : Int :=
  if isSp then (tp.startIndexInLine : Int) - maxPrev - 1
  else max 0 (tp.spacesLeft : Int) - 1

/-- The `spacesToSpare` fold: minimum slack over the run, starting from
positive infinity (`none`). -/
def computeSpare (isSp : Bool) (maxPrev : Int) (run : List TokenPos) : Option Int :=
  run.foldl (fun acc tp =>
    match acc with
    | none => some (slackOf isSp maxPrev tp)
    | some a => some (min a (slackOf isSp maxPrev tp))) none

/-- Maximum prior-token end column over the run's non-line-leading
members (the compression anchor of derived signatures). -/
def maxPrevEndOf (run : List TokenPos) : Int :=
  run.foldl (fun m tp => if tp.isFirstInLine then m else max m tp.prevEndColumn) 0

/-- The final loop of `processSequence`: assign each non-leading,
non-separator, non-comment member's override. -/
def overrideLoop (z : Int) (run : List TokenPos) (st : NSState) : NSState :=
  run.foldl (fun st tp =>
    if tp.tokenType = .COMMA ∨ tp.tokenType = .PERIOD ∨ tp.tokenType = .COLON then st
    else if tp.isFirstInLine then st
    else if tp.tokenType = .COMMENT then st
    else
      let nv := Int.toNat (max 0 ((tp.spacesLeft : Int) - z))
      { st with overrides := setOv st.overrides tp.token.id nv }) st

/-- The body of `processSequence` on the extracted run
(`tokenPosList[startIndex ..< endIndex]`). -/
def processRun (run : List TokenPos) (isSp : Bool) (st : NSState) : NSState :=
  match run with
  | [] => st
  | first :: rest =>
    let run := first :: rest
    let st1 := { st with grouped := st.grouped ++ run.map (fun tp => tp.token.id) }
    let maxPrev := if isSp then maxPrevEndOf run else 0
    if isSp ∧ run.all (fun tp => decide
        (tp.startIndexInLine = first.startIndexInLine)) = true then st1
    else
      let st2 := if isSp then
          { st1 with processed := st1.processed ++ run.map (fun tp => tp.token.id) }
        else st1
      match computeSpare isSp maxPrev run with
      | none => st2
      | some z =>
        if run.all (fun tp => tp.isFirstInLine) = true ∨ z ≤ 0 then st2
        else overrideLoop z run st2

/-- `processSequence` of needlessSpacesRule.ts. -/
def processSequence (tl : List TokenPos) (s e : Nat) (isSp : Bool)
    (st : NSState) : NSState :=
  if e - s < 2 then st
  else processRun (runSlice tl s e) isSp st

/-- The inner `while (true)` loop growing a run: returns the exclusive
end index and the skip flag.  The index advances every iteration, so
fuel `tl.length + 1` never runs out. -/
def growRun (tl : List TokenPos) (fol : List (Nat × TokenPos)) (xPos : Nat)
    (processed : List Nat) (first : TokenPos) :
    Nat → TokenPos → Nat → Bool → Nat × Bool
  | 0, _, e, skip => (e + 1, skip)
  | fuel + 1, prev, e, skip =>
    let skip := skip || processed.contains prev.token.id
    let e' := e + 1
    match tl.get? e' with
    | none => (e', skip)
    | some t =>
      if tokenBreaksSequence first prev t xPos fol then (e', skip)
      else growRun tl fol xPos processed first fuel t e' skip

/-- The outer `while (startIndex < tokenPosList.length)` loop over one
signature's sorted token list. -/
def seqLoop (tl : List TokenPos) (fol : List (Nat × TokenPos)) (isSp : Bool)
    (xPos : Nat) : Nat → Nat → NSState → NSState
  | 0, _, st => st
  | fuel + 1, s, st =>
    match tl.get? s with
    | none => st
    | some first =>
      let r := growRun tl fol xPos st.processed first (tl.length + 1) first s false
      let st' := if r.2 then st else processSequence tl s r.1 isSp st
      seqLoop tl fol isSp xPos fuel r.1 st'

/-- Processing of one x-position signature: skip signatures with fewer
than two tokens, sort stably by (line, ordinal, column), and run the
sequence loop; odd keys are the derived ("special") signatures. -/
def processKey (xmap : List (Nat × List TokenPos)) (fol : List (Nat × TokenPos))
    (st : NSState) (key : Nat) : NSState :=
  match List.lookup key xmap with
  | none => st
  | some l =>
    if l.length < 2 then st
    else
      let tl := stableSort cmpTokenPosLe l
      seqLoop tl fol (key % 2 != 0) (key / 2) (tl.length + 1) 0 st

/-- `condenseStandaloneTokens`: every ungrouped, non-line-leading token
with more than one space before it (and not a separator, comment or
pragma, and not already overridden) gets its override forced to 1. -/
def condenseStandaloneTokens (tps : List TokenPos) (st : NSState) : NSState :=
  tps.foldl (fun st tp =>
    if tp.isFirstInLine then st
    else if st.grouped.contains tp.token.id then st
    else if (List.lookup tp.token.id st.overrides).isSome then st
    else if tp.tokenType = .COMMENT ∨ tp.tokenType = .PRAGMA ∨
        tp.tokenType = .COMMA ∨ tp.tokenType = .PERIOD ∨
        tp.tokenType = .COLON then st
    else if tp.spacesLeft ≤ 1 then st
    else { st with overrides := setOv st.overrides tp.token.id 1 }) st

/-- `isMatchingBracketPair`. -/
def isMatchingBracketPair (l r : String) : Bool :=
  (l = "(" && r = ")") || (l = "[" && r = "]")

/-- `applyEmptyBracketOverridesToTokens`: a closing bracket directly
following its matching opener on the same line with stray space gets
override 0. -/
def applyEmptyBracketOverridesToTokens (tokens : List Tok)
    (ov : List (Nat × Nat)) : List (Nat × Nat) :=
  (List.range (tokens.length - 1)).foldl (fun ov index =>
    match tokens.get? index, tokens.get? (index + 1) with
    | some current, some next =>
      if ! isMatchingBracketPair current.text next.text then ov
      else if current.loc.endLine ≠ next.loc.startLine then ov
      else if (next.loc.startColumn : Int) - current.loc.endColumn - 1 > 0 then
        setOv ov next.id 0
      else ov
    | _, _ => ov) ov

/-- `applyEmptyBracketOverrides` over all statements and chain entries. -/
def applyEmptyBracketOverrides (stmts : List PStmt) (ov : List (Nat × Nat)) :
    List (Nat × Nat) :=
  stmts.foldl (fun ov st =>
    let ov := applyEmptyBracketOverridesToTokens st.tokens ov
    match st.chain with
    | none => ov
    | some entries => entries.foldl (fun ov e =>
        match e with
        | some toks => applyEmptyBracketOverridesToTokens toks ov
        | none => ov) ov) ov

/-- `computeNeedlessSpacesOverrides`: collect positions, process the
signatures from the highest key downwards, condense stragglers, then
apply the empty-bracket overrides. -/
def computeNeedlessSpacesOverrides (stmts : List PStmt) : List (Nat × Nat) :=
  let collected := collectAll stmts
  let xmap := buildXPosMap collected
  let fol := buildFirstTokenOfLine collected
  if xmap.isEmpty then []
  else
    let keys := stableSort (fun a b => decide (b ≤ a)) (xmap.map (fun p => p.1))
    let st := keys.foldl (fun st key => processKey xmap fol st key)
      (NSState.mk [] [] [])
    let st := condenseStandaloneTokens collected st
    applyEmptyBracketOverrides stmts st.overrides

/-- Helper for building concrete tokens the way the parser does
(`convertToken`): `upper` is the uppercased text and the end column is
the start column plus the text length (the tokenizer's exclusive end
position, shifted to 0-based like `calcLocation`). -/
def mkTok (id : Nat) (role : TokenRole) (text : String) (line col : Nat) : Tok :=
  { id, role, text, upper := jsToUpper text,
    loc := { startLine := line, startColumn := col, endLine := line,
             endColumn := col + text.length },
    hasFollowingLineBreak := false }

/-! ## ClosingBracketsPositionRule

Embedding of closingBracketsPositionRule.ts.  The in-place flag
mutations of the token array are modelled with `updAt`; the deferred
post-comment `WeakMap` is an association list keyed by statement index
(statement identity), rebuilt from empty on every invocation exactly as
the source clears it per statement. -/

/-- `CLOSING_TOKENS`. -/
def closingTokens : List String := [")", "]"]

/-- `shouldAttach`: the previous token carries a break, and is not a
comment (the call sites always pass a defined token). -/
def shouldAttach (previous : Tok) : Bool :=
  if ¬ previous.hasFollowingLineBreak then false
  else if previous.role = .comment then false
  else true

/-- `shouldKeepTogether`: closing brackets, periods, pragmas and other
punctuation stay on the bracket's line. -/
def shouldKeepTogether (next : Tok) : Bool :=
  let text := jsTrim next.text
  if text = "." then true
  else if closingTokens.contains text then true
  else if next.role = .pragma then true
  else if next.role = .punctuation then true
  else false

/-- In-place write of `hasFollowingLineBreak` on the token at `n`. -/
def setFlagAt (l : List Tok) (n : Nat) (b : Bool) : List Tok :=
  updAt l n (fun t => { t with hasFollowingLineBreak := b })

/-- Body of the `adjustClosingBracketsInTokens` loop at `index`,
threading the (mutated) token list and the changed flag. -/
def adjustStep (acc : List Tok × Bool) (index : Nat) : List Tok × Bool :=
  let toks := acc.1
  match toks.get? index, toks.get? (index - 1) with
  | some current, some previous =>
    let currentText := jsTrim current.text
    let previousText := jsTrim previous.text
    let isClosingBracket := closingTokens.contains currentText
    let isPeriod := currentText = "."
    let shouldMoveBracket := isClosingBracket && shouldAttach previous
    let shouldMovePeriod := isPeriod && shouldAttach previous &&
      closingTokens.contains previousText
    if ¬ (shouldMoveBracket || shouldMovePeriod) then acc
    else
      let acc1 := if previous.hasFollowingLineBreak then
          (setFlagAt toks (index - 1) false, true)
        else acc
      if shouldMoveBracket then
        let toks2 := match acc1.1.get? (index + 1) with
          | some next =>
            if next.loc.startLine = current.loc.startLine ∧
                ¬ shouldKeepTogether next then setFlagAt acc1.1 index true
            else acc1.1
          | none => acc1.1
        let toks3 := match toks2.get? (index + 1), toks2.get? index with
          | some next, some cur2 =>
            if jsTrim next.text = "." ∧ cur2.hasFollowingLineBreak then
              setFlagAt toks2 index false
            else toks2
          | _, _ => toks2
        (toks3, acc1.2)
      else acc1
  | _, _ => acc

/-- `adjustClosingBracketsInTokens`: walk indices `1 ..< length`; the
Boolean reports whether at least one break flag was cleared. -/
def adjustClosingBracketsInTokens (tokens : List Tok) : List Tok × Bool :=
  if tokens.length < 2 then (tokens, false)
  else (List.range' 1 (tokens.length - 1)).foldl adjustStep (tokens, false)

/-- Comment decomposition used by the merge pass
(`extractCommentParts`): strip the sign, detect pseudo-comments. -/
structure CommentParts where
  value : String
  isPseudo : Bool
  deriving DecidableEq, Repr

def extractCommentParts (comment : AComment) : Option CommentParts :=
  match ltrimL comment.value.toList with
  | [] => none
  | c :: rest =>
    if c ≠ commentSignChar then none
    else
      let withoutQuote := ltrimL rest
      some { value := (trimL withoutQuote).asString,
             isPseudo := withoutQuote.head? = some '#' }

/-- `cloneComment` (a field-for-field copy). -/
def cloneComment (c : AComment) : AComment := c

/-- `forcePeriodLine`: set the break flag on the token preceding the
last period of the statement's token list. -/
def forcePeriodLine (tokens : List Tok) : List Tok :=
  if tokens.length < 2 then tokens
  else
    match (List.range tokens.length).reverse.find? (fun i =>
        decide (1 ≤ i) && (match tokens.get? i with
          | some t => jsTrim t.text = "."
          | none => false)) with
    | some i => setFlagAt tokens (i - 1) true
    | none => tokens

/-- `WeakMap.set` for the post-comment table. -/
def setPost (l : List (Nat × AComment)) (k : Nat) (c : AComment) :
    List (Nat × AComment) :=
  if l.any (fun p => p.1 = k) then
    l.map (fun p => if p.1 = k then (k, c) else p)
  else l ++ [(k, c)]

/-- Body of the `mergeTrailingComments` loop for the adjacent pair at
`(i, i+1)`. -/
def mergePairStep (touched : List Nat) (i : Nat)
    (acc : List PStmt × List (Nat × AComment)) :
    List PStmt × List (Nat × AComment) :=
  let stmts := acc.1
  let post := acc.2
  match stmts.get? i, stmts.get? (i + 1) with
  | some current, some next =>
    if ¬ touched.contains i then acc
    else
      match next.trailingComment with
      | none => acc
      | some nextComment =>
        if ¬ nextComment.inline then acc
        else if nextComment.loc.startLine ≠ current.loc.endLine then acc
        else
          match extractCommentParts nextComment with
          | none => acc
          | some nextParts =>
            let currentParts := match current.trailingComment with
              | some cc => extractCommentParts cc
              | none => none
            let curPseudo := match currentParts with
              | some cp => cp.isPseudo
              | none => false
            if nextParts.isPseudo || curPseudo then
              let post := setPost post i (cloneComment nextComment)
              let stmts := updAt stmts i
                (fun s => { s with tokens := forcePeriodLine s.tokens })
              let stmts := updAt stmts (i + 1)
                (fun s => { s with trailingComment := none })
              (stmts, post)
            else
              let combinedText := match currentParts with
                | some cp => cp.value ++ "; " ++ nextParts.value
                | none => nextParts.value
              let base := match current.trailingComment with
                | some cc => cc
                | none => nextComment
              let base := { base with value := "\" " ++ combinedText }
              let stmts := updAt stmts i
                (fun s => { s with trailingComment := some base })
              let stmts := updAt stmts (i + 1)
                (fun s => { s with trailingComment := none })
              (stmts, post)
  | _, _ => acc

/-- `mergeTrailingComments` over all adjacent pairs, threading the
statement list and the post-comment table. -/
def mergeTrailingComments (stmts : List PStmt) (touched : List Nat) :
    List PStmt × List (Nat × AComment) :=
  (List.range (stmts.length - 1)).foldl
    (fun acc i => mergePairStep touched i acc) (stmts, [])

/-- Adjust one statement: its own token list (recording whether it was
touched) and every chain entry's token list. -/
def adjustStatement (st : PStmt) : PStmt × Bool :=
  let r := adjustClosingBracketsInTokens st.tokens
  let chain := match st.chain with
    | none => none
    | some entries => some (entries.map (fun e =>
        e.map (fun toks => (adjustClosingBracketsInTokens toks).1)))
  ({ st with tokens := r.1, chain := chain }, r.2)

/-- `applyClosingBracketsPosition`: adjust every statement and chain
entry, then run the comment-merge pass over the touched statements.
Returns the updated statements and the deferred post-comment table. -/
def applyClosingBracketsPosition (stmts : List PStmt) :
    List PStmt × List (Nat × AComment) :=
  if stmts.isEmpty then (stmts, [])
  else
    let adjusted := stmts.map adjustStatement
    let stmts1 := adjusted.map (fun p => p.1)
    let touched := (List.range adjusted.length).filter (fun i =>
      match adjusted.get? i with
      | some p => p.2
      | none => false)
    mergeTrailingComments stmts1 touched

/-! ## Frame property of the bracket repositioner (C8 support) -/

/-- Projection erasing the single mutable token field. -/
def eraseTokMut (t : Tok) : Tok := { t with hasFollowingLineBreak := false }

/-- Projection erasing everything the bracket pass may mutate: break
flags (everywhere) and the trailing comment. -/
def eraseStmtMut (s : PStmt) : PStmt :=
  { s with tokens := s.tokens.map eraseTokMut,
           chain := s.chain.map (fun es => es.map (fun e =>
             e.map (fun ts => ts.map eraseTokMut))),
           trailingComment := none }

/-- All token texts of a statement: statement tokens, then chain
entries. -/
def stmtTexts (s : PStmt) : List String :=
  s.tokens.map (fun t => t.text) ++ (match s.chain with
    | none => []
    | some es => (es.map (fun e => match e with
        | some ts => ts.map (fun t => t.text)
        | none => [])).flatten)

/-- Concatenation of all token texts over a statement list, whitespace
ignored (texts are joined directly). -/
def concatAllTexts (stmts : List PStmt) : String :=
  String.join ((stmts.map stmtTexts).flatten)

theorem map_updAt_of_fix {α β : Type} (f : α → β) (g : α → α)
    (h : ∀ x, f (g x) = f x) :
    ∀ (l : List α) (n : Nat), (updAt l n g).map f = l.map f := by
  intro l
  induction l with
  | nil => intro n; rfl
  | cons a as ih =>
    intro n
    cases n with
    | zero => simp [updAt, h]
    | succ m => simp [updAt, ih m]

theorem map_eraseTokMut_setFlagAt (l : List Tok) (n : Nat) (b : Bool) :
    (setFlagAt l n b).map eraseTokMut = l.map eraseTokMut :=
  map_updAt_of_fix eraseTokMut (fun t => { t with hasFollowingLineBreak := b })
    (fun _ => rfl) l n

theorem adjustStep_erase (acc : List Tok × Bool) (i : Nat) :
    (adjustStep acc i).1.map eraseTokMut = acc.1.map eraseTokMut := by
  simp only [adjustStep]
  repeat' split
  all_goals simp [map_eraseTokMut_setFlagAt]

theorem adjust_erase (tokens : List Tok) :
    (adjustClosingBracketsInTokens tokens).1.map eraseTokMut =
      tokens.map eraseTokMut := by
  unfold adjustClosingBracketsInTokens
  split
  · rfl
  · generalize List.range' 1 (tokens.length - 1) = idxs
    have h : ∀ (ix : List Nat) (acc : List Tok × Bool),
        (ix.foldl adjustStep acc).1.map eraseTokMut = acc.1.map eraseTokMut := by
      intro ix
      induction ix with
      | nil => intro acc; rfl
      | cons j js ih =>
        intro acc
        simp only [List.foldl_cons]
        rw [ih (adjustStep acc j), adjustStep_erase]
    exact h idxs (tokens, false)

theorem forcePeriodLine_erase (tokens : List Tok) :
    (forcePeriodLine tokens).map eraseTokMut = tokens.map eraseTokMut := by
  unfold forcePeriodLine
  split
  · rfl
  · split
    · exact map_eraseTokMut_setFlagAt _ _ _
    · rfl

theorem adjustStatement_erase (st : PStmt) :
    eraseStmtMut (adjustStatement st).1 = eraseStmtMut st := by
  unfold adjustStatement eraseStmtMut
  cases hch : st.chain with
  | none => simp [hch, adjust_erase]
  | some es =>
    simp only [hch, Option.map_some', PStmt.mk.injEq, and_true, true_and]
    refine ⟨adjust_erase st.tokens, ?_⟩
    simp only [Option.map_some', Option.some.injEq, List.map_map]
    apply List.map_congr_left
    intro e _
    cases e with
    | none => rfl
    | some ts => simp [adjust_erase]

theorem map_erase_updAt_forceTokens (l : List PStmt) (n : Nat) :
    (updAt l n (fun s => { s with tokens := forcePeriodLine s.tokens })).map
      eraseStmtMut = l.map eraseStmtMut := by
  apply map_updAt_of_fix
  intro s
  unfold eraseStmtMut
  simp [forcePeriodLine_erase]

theorem map_erase_updAt_trailing (l : List PStmt) (n : Nat)
    (c : Option AComment) :
    (updAt l n (fun s => { s with trailingComment := c })).map eraseStmtMut =
      l.map eraseStmtMut := by
  apply map_updAt_of_fix
  intro s
  rfl

theorem mergePairStep_erase (touched : List Nat) (i : Nat)
    (acc : List PStmt × List (Nat × AComment)) :
    (mergePairStep touched i acc).1.map eraseStmtMut =
      acc.1.map eraseStmtMut := by
  simp only [mergePairStep]
  repeat' split
  all_goals simp [map_erase_updAt_forceTokens, map_erase_updAt_trailing]

theorem mergeTrailingComments_erase (stmts : List PStmt) (touched : List Nat) :
    (mergeTrailingComments stmts touched).1.map eraseStmtMut =
      stmts.map eraseStmtMut := by
  unfold mergeTrailingComments
  generalize List.range (stmts.length - 1) = idxs
  have h : ∀ (ix : List Nat) (acc : List PStmt × List (Nat × AComment)),
      (ix.foldl (fun acc i => mergePairStep touched i acc) acc).1.map
        eraseStmtMut = acc.1.map eraseStmtMut := by
    intro ix
    induction ix with
    | nil => intro acc; rfl
    | cons j js ih =>
      intro acc
      simp only [List.foldl_cons]
      rw [ih (mergePairStep touched j acc), mergePairStep_erase]
  exact h idxs (stmts, [])

theorem stmtTexts_eraseStmtMut (s : PStmt) :
    stmtTexts (eraseStmtMut s) = stmtTexts s := by
  unfold stmtTexts eraseStmtMut
  cases hch : s.chain with
  | none => simp [hch, eraseTokMut]
  | some es =>
    simp only [hch, Option.map_some', List.map_map]
    congr 1
    apply congrArg List.flatten
    apply List.map_congr_left
    intro e _
    cases e with
    | none => rfl
    | some ts => simp [eraseTokMut]

/-- C8 — Bracket repositioning preserves token order and content: the
pass changes only `hasFollowingLineBreak` flags and trailing/post
comment fields — erasing exactly those fields, the statement list is
unchanged — and hence the concatenation of all token texts (whitespace
ignored) is identical before and after `applyClosingBracketsPosition`. -/
theorem closing_brackets_frame (stmts : List PStmt) :
    (applyClosingBracketsPosition stmts).1.map eraseStmtMut =
      stmts.map eraseStmtMut ∧
    concatAllTexts (applyClosingBracketsPosition stmts).1 =
      concatAllTexts stmts := by
  have hmain : (applyClosingBracketsPosition stmts).1.map eraseStmtMut =
      stmts.map eraseStmtMut := by
    unfold applyClosingBracketsPosition
    split
    · rfl
    · rw [mergeTrailingComments_erase]
      simp only [List.map_map]
      apply List.map_congr_left
      intro s _
      exact adjustStatement_erase s
  refine ⟨hmain, ?_⟩
  unfold concatAllTexts
  have h1 : (applyClosingBracketsPosition stmts).1.map stmtTexts =
      stmts.map stmtTexts := by
    have e1 : (applyClosingBracketsPosition stmts).1.map stmtTexts =
        ((applyClosingBracketsPosition stmts).1.map eraseStmtMut).map
          stmtTexts := by
      simp only [List.map_map]
      apply List.map_congr_left
      intro s _
      exact (stmtTexts_eraseStmtMut s).symm
    have e2 : (stmts.map eraseStmtMut).map stmtTexts = stmts.map stmtTexts := by
      simp only [List.map_map]
      apply List.map_congr_left
      intro s _
      exact stmtTexts_eraseStmtMut s
    rw [e1, hmain, e2]
  rw [h1]

/-! ## IndentRule (the indentation engine)

Embedding of indentRule.ts.  The upstream statement nodes expose a
classification (`statement.get()`, matched against constructor lists),
a first token with a possibly-virtual position, and token row spans used
for blank-line detection; `IStmt` models exactly that interface. -/

/-- The statement classifications the indentation engine distinguishes
(the `@abaplint/core` statement constructors named in the rule, plus
`Comment` and a catch-all). -/
inductive StmtType where
  | EndIf | EndWhile | EndLoop | EndSelect | EndTry | EndCase | EndDo
  | EndFunction | EndMethod | EndClass | EndModule | EndForm | EndInterface
  | EndChain | EndAt | EndExec | EndCatch | EndTestInjection | EndTestSeam
  | Else | ElseIf | Catch | Cleanup | When | WhenType | WhenOthers
  | If | While | Loop | Select | SelectLoop | Do | Try | Case | CaseType
  | ClassDefinition | ClassImplementation | MethodImplementation
  | FunctionModule | Module | Define | Form | TestSeam | TestInjection
  | Comment | Other
  deriving DecidableEq, Repr

/-- The upstream statement-node interface as read by the rule: the
classification, whether a first token exists and starts at a virtual
position, the first token's start row, the last token's end row, and
whether the token list is non-empty. -/
structure IStmt where
  type : StmtType
  hasFirstToken : Bool
  firstVirtual : Bool
  firstRow : Nat
  lastRow : Nat
  hasTokens : Bool
  deriving DecidableEq, Repr

/-- `DEDENT_BEFORE` membership. -/
def isDedentBefore (t : StmtType) : Bool :=
  match t with
  | .EndIf | .EndWhile | .EndLoop | .EndSelect | .EndTry | .EndCase | .EndDo
  | .EndFunction | .EndMethod | .EndClass | .EndModule | .EndForm
  | .EndInterface | .EndChain | .EndAt | .EndExec | .EndCatch
  | .EndTestInjection | .EndTestSeam => true
  | _ => false

/-- `MIDDLE_KEYWORDS` membership. -/
def isMiddle (t : StmtType) : Bool :=
  match t with
  | .Else | .ElseIf | .Catch | .Cleanup | .When | .WhenType | .WhenOthers => true
  | _ => false

/-- `INDENT_AFTER` membership. -/
def isIndentAfter (t : StmtType) : Bool :=
  match t with
  | .If | .Else | .ElseIf | .While | .Loop | .Select | .SelectLoop | .Do
  | .Try | .Case | .CaseType | .Catch | .Cleanup | .ClassDefinition
  | .ClassImplementation | .MethodImplementation | .FunctionModule | .Module
  | .Define | .Form | .TestSeam | .TestInjection => true
  | _ => false

/-- `ALIGN_WITH_NEXT` membership. -/
def isAlignWithNext (t : StmtType) : Bool :=
  match t with
  | .Else | .ElseIf | .Catch | .Cleanup | .When | .WhenType | .WhenOthers => true
  | _ => false

/-- `Select`/`SelectLoop` (the optional-block openers). -/
def isSelectType (t : StmtType) : Bool :=
  t = .Select || t = .SelectLoop

/-- `KEEP_EXISTING_INDENT`. -/
def keepExistingIndent : Int := -1

/-- `isStandaloneComment` (constructor-name check). -/
def isStandaloneCommentType (s : IStmt) : Bool := s.type = .Comment

/-- `hasBlankLineAbove`: at least one empty source line between the
previous statement's last token and this statement's first token. -/
def hasBlankLineAbove (statement : IStmt) (previous : Option IStmt) : Bool :=
  match previous with
  | none => false
  | some p =>
    if ¬ p.hasTokens ∨ ¬ statement.hasTokens then false
    else p.lastRow + 2 ≤ statement.firstRow

/-- `findSelectBlocks`: one forward pass with a stack; an `EndSelect`
pops the most recent open Select/SelectLoop index, which is recorded as
having a matching closer. -/
def findSelectBlocks (statements : List IStmt) : List Nat :=
  (statements.foldl (fun (acc : List Nat × List Nat × Nat) statement =>
    let result := acc.1
    let stack := acc.2.1
    let index := acc.2.2
    if isSelectType statement.type then (result, index :: stack, index + 1)
    else if statement.type = .EndSelect then
      match stack with
      | top :: rest => (result ++ [top], rest, index + 1)
      | [] => (result, [], index + 1)
    else (result, stack, index + 1)) ([], [], 0)).1

/-- The forward cursor of `findAlignmentTarget`: skip over standalone
comments that do not have a blank line above them. -/
def alignCursor (statements : List IStmt) : Nat → Nat → Nat
  | 0, cursor => cursor
  | fuel + 1, cursor =>
    match statements.get? cursor with
    | none => cursor
    | some candidate =>
      if isStandaloneCommentType candidate ∧
          ¬ hasBlankLineAbove candidate (statements.get? (cursor - 1)) then
        alignCursor statements fuel (cursor + 1)
      else cursor

/-- `findAlignmentTarget`: a standalone comment preceded by a blank line
whose next non-comment statement is a MIDDLE-kind statement aligns with
it at one level less. -/
def findAlignmentTarget (statements : List IStmt) (startIndex : Nat)
    (currentDepth : Nat) : Option (Nat × Nat) :=
  if currentDepth = 0 then none
  else
    match statements.get? startIndex with
    | none => none
    | some current =>
      let previous := if startIndex = 0 then none
        else statements.get? (startIndex - 1)
      if ¬ hasBlankLineAbove current previous then none
      else
        let cursor := alignCursor statements (statements.length + 1)
          (startIndex + 1)
        match statements.get? cursor with
        | none => none
        | some target =>
          if ¬ isAlignWithNext target.type then none
          else some (cursor, currentDepth - 1)

/-- The per-invocation state of the engine: the running depth and the
armed alignment (depth and exclusive target index). -/
structure IState where
  depth : Nat
  alignDepth : Option Nat
  alignTarget : Option Nat
  deriving DecidableEq, Repr

/-- Clearing of an expired alignment target (the top of the per-statement
loop body). -/
def clearAlign (st : IState) (i : Nat) : IState :=
  match st.alignTarget with
  | some t => if t ≤ i then { st with alignTarget := none, alignDepth := none }
              else st
  | none => st

/-- One iteration of the `computeIndentationLevels` loop: returns the
emitted level and the successor state. -/
def indentStep (statements : List IStmt) (blocks : List Nat) (i : Nat)
    (st : IState) (s : IStmt) : Int × IState :=
  let st := clearAlign st i
  if ¬ s.hasFirstToken ∨ s.firstVirtual then (keepExistingIndent, st)
  else
    let st := if isDedentBefore s.type || isMiddle s.type then
        { st with depth := st.depth - 1 }
      else st
    let levelAndSt : Nat × IState := match st.alignDepth with
      | some d => (d, st)
      | none =>
        if isStandaloneCommentType s then
          match findAlignmentTarget statements i st.depth with
          | some p =>
            (p.2, { st with alignDepth := some p.2, alignTarget := some p.1 })
          | none => (st.depth, st)
        else (st.depth, st)
    let level := levelAndSt.1
    let st := levelAndSt.2
    let shouldIndentAfter := isIndentAfter s.type &&
      (! isSelectType s.type || blocks.contains i)
    ((level : Int),
     if shouldIndentAfter then { st with depth := st.depth + 1 } else st)

/-- The loop body of `computeIndentationLevels` over the remaining
statements, carrying the running index and state. -/
def indentFold (statements : List IStmt) (blocks : List Nat) :
    List IStmt → Nat → IState → List Int
  | [], _, _ => []
  | s :: rest, i, st =>
    let r := indentStep statements blocks i st s
    r.1 :: indentFold statements blocks rest (i + 1) r.2

/-- `computeIndentationLevels` of indentRule.ts: the Select-block set is
computed once by `findSelectBlocks` before the per-statement loop. -/
def computeIndentationLevels (statements : List IStmt) : List Int :=
  indentFold statements (findSelectBlocks statements) statements 0
    (IState.mk 0 none none)

/-- The engine state after the first `n` statements have been processed
(the same step function `indentStep` that `computeIndentationLevels`
folds). -/
def indentStateAfter (statements : List IStmt) (blocks : List Nat) :
    Nat → IState
  | 0 => IState.mk 0 none none
  | n + 1 =>
    match statements.get? n with
    | none => indentStateAfter statements blocks n
    | some s =>
      (indentStep statements blocks n (indentStateAfter statements blocks n) s).2

theorem clearAlign_depth (st : IState) (i : Nat) :
    (clearAlign st i).depth = st.depth := by
  unfold clearAlign
  split
  · split <;> rfl
  · rfl

theorem indentStep_depth (statements : List IStmt) (blocks : List Nat)
    (i : Nat) (st : IState) (s : IStmt)
    (hft : s.hasFirstToken = true) (hv : s.firstVirtual = false)
    (hk : isIndentAfter s.type = true) :
    (indentStep statements blocks i st s).2.depth =
      (if isDedentBefore s.type || isMiddle s.type then st.depth - 1
       else st.depth) +
      (if isSelectType s.type = true ∧ blocks.contains i = false then 0
       else 1) := by
  rw [show st.depth = (clearAlign st i).depth from (clearAlign_depth st i).symm]
  unfold indentStep
  generalize clearAlign st i = st1
  rcases st1 with ⟨d, ad, tgt⟩
  simp only [hft, hv, not_true, Bool.false_eq_true, or_false, if_false,
    ite_false, hk, Bool.true_and, true_and]
  repeat' split
  all_goals simp_all

theorem drop_cons_of_get? {α : Type} :
    ∀ (l : List α) (m : Nat) (a : α), l.get? m = some a →
      l.drop m = a :: l.drop (m + 1) := by
  intro l
  induction l with
  | nil => intro m a h; simp at h
  | cons x xs ih =>
    intro m a h
    cases m with
    | zero =>
      simp only [List.get?_cons_zero, Option.some.injEq] at h
      simp [h]
    | succ k =>
      simp only [List.get?_cons_succ] at h
      simpa [List.drop] using ih k a h

theorem indentFold_get? (statements : List IStmt) (blocks : List Nat) :
    ∀ (k m : Nat) (s : IStmt), statements.get? (m + k) = some s →
      (indentFold statements blocks (statements.drop m) m
        (indentStateAfter statements blocks m)).get? k =
      some (indentStep statements blocks (m + k)
        (indentStateAfter statements blocks (m + k)) s).1 := by
  intro k
  induction k with
  | zero =>
    intro m s h
    rw [drop_cons_of_get? _ _ _ (by simpa using h)]
    simp only [indentFold, List.get?_cons_zero, Nat.add_zero]
  | succ k ih =>
    intro m s h
    have hlt : m + (k + 1) < statements.length := by
      rcases List.get?_eq_some.mp h with ⟨hl, _⟩
      exact hl
    have hmlt : m < statements.length := by omega
    obtain ⟨t, ht⟩ : ∃ t, statements.get? m = some t :=
      ⟨statements.get ⟨m, hmlt⟩, List.get?_eq_get hmlt⟩
    rw [drop_cons_of_get? _ _ _ ht]
    simp only [indentFold, List.get?_cons_succ]
    have hst : indentStateAfter statements blocks (m + 1) =
        (indentStep statements blocks m
          (indentStateAfter statements blocks m) t).2 := by
      have ht' : statements[m]? = some t := by
        rw [← List.get?_eq_getElem?]
        exact ht
      simp [indentStateAfter, ht']
    rw [← hst]
    have h' : statements.get? ((m + 1) + k) = some s := by
      rw [show (m + 1) + k = m + (k + 1) by omega]
      exact h
    have := ih (m + 1) s h'
    rw [show m + (k + 1) = (m + 1) + k by omega]
    exact this

theorem computeIndentationLevels_get? (statements : List IStmt) (n : Nat)
    (s : IStmt) (hs : statements.get? n = some s) :
    (computeIndentationLevels statements).get? n =
      some (indentStep statements (findSelectBlocks statements) n
        (indentStateAfter statements (findSelectBlocks statements) n) s).1 := by
  have h := indentFold_get? statements (findSelectBlocks statements) n 0 s
    (by simpa using hs)
  simpa [computeIndentationLevels, indentStateAfter] using h

/-- C7 — For every non-synthetic statement whose kind is in
INDENT_AFTER, the engine's depth after the statement equals the depth at
which its level was assigned (i.e. after any dedent-before adjustment)
plus one — except that a Select/SelectLoop opener leaves the depth
unchanged exactly when `findSelectBlocks` (the single forward
stack-matching pre-pass, computed once before the per-statement loop in
`computeIndentationLevels`) records no matching EndSelect for its
index.  The first conjunct ties the engine's published output to the
same step function and pre-pass at that index. -/
theorem indent_after_increments (statements : List IStmt) (n : Nat) (s : IStmt)
    (hs : statements.get? n = some s)
    (hft : s.hasFirstToken = true) (hv : s.firstVirtual = false)
    (hk : isIndentAfter s.type = true) :
    (computeIndentationLevels statements).get? n =
      some (indentStep statements (findSelectBlocks statements) n
        (indentStateAfter statements (findSelectBlocks statements) n) s).1 ∧
    (indentStateAfter statements (findSelectBlocks statements) (n + 1)).depth =
      (if isDedentBefore s.type || isMiddle s.type then
        (indentStateAfter statements (findSelectBlocks statements) n).depth - 1
       else
        (indentStateAfter statements (findSelectBlocks statements) n).depth) +
      (if isSelectType s.type = true ∧
          (findSelectBlocks statements).contains n = false then 0 else 1) := by
  refine ⟨computeIndentationLevels_get? statements n s hs, ?_⟩
  have h := indentStep_depth statements (findSelectBlocks statements) n
    (indentStateAfter statements (findSelectBlocks statements) n) s hft hv hk
  simp only [indentStateAfter, hs]
  exact h

/-- Closed instance of `indent_after_increments`: a single `IF`
statement assigns level 0 and leaves the engine at depth 1; a `SELECT`
with no matching `ENDSELECT` leaves the depth at 0. -/
theorem indent_after_increments_witness :
    ((indentStateAfter [IStmt.mk .If true false 1 1 true]
        (findSelectBlocks [IStmt.mk .If true false 1 1 true]) 1).depth = 1 ∧
      (computeIndentationLevels [IStmt.mk .If true false 1 1 true]).get? 0 =
        some 0) ∧
    (indentStateAfter [IStmt.mk .Select true false 1 1 true]
        (findSelectBlocks [IStmt.mk .Select true false 1 1 true]) 1).depth = 0 := by
  have h1 := indent_after_increments [IStmt.mk .If true false 1 1 true] 0
    (IStmt.mk .If true false 1 1 true) rfl rfl rfl rfl
  have h2 := indent_after_increments [IStmt.mk .Select true false 1 1 true] 0
    (IStmt.mk .Select true false 1 1 true) rfl rfl rfl rfl
  refine ⟨⟨h1.2.trans (by decide), h1.1.trans (by decide)⟩, ?_⟩
  exact h2.2.trans (by decide)

theorem find?_reverse_range (p : Nat → Bool) :
    ∀ (n j : Nat), j < n → p j = true →
      (∀ k, j < k → k < n → p k = false) →
      (List.range n).reverse.find? p = some j := by
  intro n
  induction n with
  | zero => intro j h; omega
  | succ m ih =>
    intro j hj hp hlast
    rw [List.range_succ, List.reverse_append]
    simp only [List.reverse_cons, List.reverse_nil, List.nil_append,
      List.cons_append, List.find?]
    by_cases hjm : j = m
    · subst hjm
      simp [hp]
    · have hm : p m = false := hlast m (by omega) (by omega)
      simp only [hm]
      exact ih j (by omega) hp (fun k hk1 hk2 => hlast k hk1 (by omega))

theorem forcePeriodLine_spec (toks : List Tok) (j : Nat) (t : Tok)
    (hlen : 2 ≤ toks.length) (hj1 : 1 ≤ j)
    (ht : toks.get? j = some t) (hp : jsTrim t.text = ".")
    (hlast : ∀ (k : Nat) (u : Tok), j < k → toks.get? k = some u →
      jsTrim u.text ≠ ".") :
    forcePeriodLine toks = setFlagAt toks (j - 1) true := by
  have hjlt : j < toks.length := (List.get?_eq_some.mp ht).1
  have hfind : (List.range toks.length).reverse.find? (fun i =>
      decide (1 ≤ i) && (match toks.get? i with
        | some t => jsTrim t.text = "."
        | none => false)) = some j := by
    apply find?_reverse_range _ toks.length j hjlt
    · simp only [ht]
      simp [hj1, hp]
    · intro k hk1 hk2
      obtain ⟨u, hu⟩ : ∃ u, toks.get? k = some u :=
        ⟨toks.get ⟨k, hk2⟩, List.get?_eq_get hk2⟩
      simp only [hu]
      have := hlast k u hk1 hu
      simp [this]
  unfold forcePeriodLine
  rw [if_neg (by omega)]
  rw [hfind]

/-- C5 — The comment-merge pass, for an adjacent pair `(current, next)`
where `current` was touched by bracket repositioning and `next`'s inline
trailing comment starts on `current`'s last line.  If either comment is
a pseudo-comment the comments are not merged: `next`'s comment becomes
`current`'s deferred post comment, `current`'s token preceding its last
period receives the break flag (via `forcePeriodLine`, characterized by
the third conjunct), and `next`'s trailing comment is cleared.
Otherwise the two comment texts are concatenated as `a; b` behind the
comment sign, assigned as `current`'s trailing comment, and `next`'s
trailing comment is cleared. -/
theorem merge_pair_behaviour
    (touched : List Nat) (i : Nat) (stmts : List PStmt)
    (post : List (Nat × AComment)) (current next : PStmt)
    (nc : AComment) (nparts : CommentParts)
    (hcur : stmts.get? i = some current)
    (hnext : stmts.get? (i + 1) = some next)
    (htouch : touched.contains i = true)
    (hnc : next.trailingComment = some nc)
    (hinline : nc.inline = true)
    (hline : nc.loc.startLine = current.loc.endLine)
    (hparts : extractCommentParts nc = some nparts) :
    ((nparts.isPseudo = true ∨ (∃ cc cp, current.trailingComment = some cc ∧
        extractCommentParts cc = some cp ∧ cp.isPseudo = true)) →
      mergePairStep touched i (stmts, post) =
        (updAt (updAt stmts i
            (fun s => { s with tokens := forcePeriodLine s.tokens })) (i + 1)
            (fun s => { s with trailingComment := none }),
         setPost post i nc)) ∧
    (∀ cc cp, current.trailingComment = some cc →
      extractCommentParts cc = some cp →
      nparts.isPseudo = false → cp.isPseudo = false →
      mergePairStep touched i (stmts, post) =
        (updAt (updAt stmts i (fun s =>
            { s with trailingComment := some (AComment.mk
                ("\" " ++ (cp.value ++ "; " ++ nparts.value)) cc.inline cc.loc) }))
          (i + 1) (fun s => { s with trailingComment := none }),
         post)) ∧
    (∀ (toks : List Tok) (j : Nat) (t : Tok), 2 ≤ toks.length → 1 ≤ j →
      toks.get? j = some t → jsTrim t.text = "." →
      (∀ (k : Nat) (u : Tok), j < k → toks.get? k = some u →
        jsTrim u.text ≠ ".") →
      forcePeriodLine toks = setFlagAt toks (j - 1) true) := by
  refine ⟨?_, ?_, fun toks j t h1 h2 h3 h4 h5 =>
    forcePeriodLine_spec toks j t h1 h2 h3 h4 h5⟩
  · intro hpseudo
    unfold mergePairStep
    rcases hpseudo with hp | ⟨cc, cp, hcc, hcp, hcpp⟩
    · simp only [hcur, hnext, htouch, hnc, hparts, hinline, hp,
        not_true, Bool.true_or, if_false, ite_false, cloneComment]
      simp [hline]
    · simp only [hcur, hnext, htouch, hnc, hparts, hinline, hcc, hcp, hcpp,
        not_true, Bool.or_true, if_false, ite_false, cloneComment]
      simp [hline]
  · intro cc cp hcc hcp hnp hcpf
    unfold mergePairStep
    simp only [hcur, hnext, htouch, hnc, hparts, hinline, hcc, hcp, hnp, hcpf,
      not_true, Bool.or_self, if_false, ite_false]
    simp [hline]

/-- First statement of the `merge_pair_behaviour` witness scenario:
`x .` on line 1 (touched by repositioning). -/
def c5stmtA : PStmt :=
  PStmt.mk [mkTok 0 .word "x" 1 0, mkTok 1 .punctuation "." 1 2]
    none none 0 (Loc.mk 1 0 1 3)

/-- The pseudo-comment of the witness scenario. -/
def c5comment : AComment := AComment.mk "\"#EC NEEDED" true (Loc.mk 1 8 1 19)

/-- Second statement of the witness scenario, trailed inline by the
pseudo-comment on the first statement's last line. -/
def c5stmtB : PStmt :=
  PStmt.mk [mkTok 2 .word "y" 1 4, mkTok 3 .punctuation "." 1 6]
    none (some c5comment) 0 (Loc.mk 1 4 1 7)

/-- Closed instance of `merge_pair_behaviour` (pseudo branch): the
comment moves to the post table, the token before the first statement's
last period gets the break flag, and the second statement's trailing
comment is cleared. -/
theorem merge_pair_behaviour_witness :
    mergePairStep [0] 0 ([c5stmtA, c5stmtB], []) =
      ([{ c5stmtA with tokens :=
            [{ mkTok 0 .word "x" 1 0 with hasFollowingLineBreak := true },
             mkTok 1 .punctuation "." 1 2] },
        { c5stmtB with trailingComment := none }],
       [(0, c5comment)]) := by
  have h := merge_pair_behaviour [0] 0 [c5stmtA, c5stmtB] [] c5stmtA c5stmtB
    c5comment (CommentParts.mk "#EC NEEDED" true)
    rfl rfl (by decide) rfl rfl rfl (by decide)
  exact (h.1 (Or.inl rfl)).trans (by decide)

/-! ## The statement renderer (printers/abap.ts)

Embedding of `printStatement` as a line-list producer
(`printStatementLines`): joining the returned lines with hard line
breaks is exactly the Doc the printer emits for one statement.  The
keyword dictionary of `applyKeywordCase` is passed through as `kws`;
the override table lookup as `ov`; the deferred post comment
(`takePostComment`) as `post`. -/

/-- A run of `n` spaces (`" ".repeat(n)`). -/
def spacesStr (n : Nat) : String := (List.replicate n ' ').asString

/-- The test `/\s$/u` on the accumulator line. -/
def endsWithJsWs (s : String) : Bool :=
  match s.toList.getLast? with
  | some c => isJsWhitespace c
  | none => false

/-- The test `line.endsWith(" ")` of `appendComment`. -/
def endsWithSpace (s : String) : Bool :=
  match s.toList.getLast? with
  | some c => c = ' '
  | none => false

/-- The test `/^[\s]*[.,]/` of the line-merge loops. -/
def startsWithDotComma (s : String) : Bool :=
  match (s.toList.dropWhile isJsWhitespace).head? with
  | some c => c = '.' || c = ','
  | none => false

/-- `renderToken` of printers/abap.ts. -/
def renderToken (kws : List String) (o : Options) (token : Tok) : String :=
  match token.role with
  | .word => applyKeywordCase kws token o
  | .colon => ":"
  | .arrow => jsTrim token.text
  | .comment => formatCommentValue o token.text
  | _ => token.text

/-- `appendComment` of printers/abap.ts. -/
def appendComment (o : Options) (line : String) (comment : Option AComment) :
    String :=
  match comment with
  | none => line
  | some comment =>
    let formatted := formatCommentValue o (jsLtrim comment.value)
    if ¬ needsSpaceBeforeCommentSign o then line ++ formatted
    else if line.length = 0 ∨ endsWithSpace line then line ++ formatted
    else line ++ " " ++ formatted

/-- The accumulator of the token loop of `printStatement`. -/
structure RenderAcc where
  lines : List String
  metas : List (Nat × Nat)
  cur : String
  prev : Option Tok
  atStart : Bool
  curStart : Option Nat
  curEnd : Option Nat
  deriving DecidableEq, Repr

/-- One iteration of the token loop of `printStatement`. -/
def renderStep (kws : List String) (o : Options) (ov : Nat → Option Nat)
    (stmt : PStmt) (indent : String) (acc : RenderAcc) (token : Tok) :
    RenderAcc :=
  let text := renderToken kws o token
  if text.length = 0 then { acc with prev := some token }
  else
    let acc := { acc with
      curStart := if acc.curStart.isNone then some token.loc.startLine
                  else acc.curStart,
      curEnd := some token.loc.startLine }
    let cur :=
      if acc.atStart then
        let relativeIndent :=
          Int.toNat ((token.loc.startColumn : Int) - stmt.loc.startColumn)
        if relativeIndent > 0 then acc.cur ++ spacesStr relativeIndent
        else acc.cur
      else
        let sp := getSpacesBeforeToken ov token acc.prev o
        if sp > 0 then
          (if endsWithJsWs acc.cur then jsRtrim acc.cur else acc.cur) ++
            spacesStr sp
        else acc.cur
    let cur := cur ++ text
    let acc := { acc with cur := cur, prev := some token, atStart := false }
    if token.hasFollowingLineBreak then
      { lines := acc.lines ++ [jsRtrim cur],
        metas := acc.metas ++ [(acc.curStart.getD token.loc.startLine,
                                acc.curEnd.getD token.loc.startLine)],
        cur := indent, prev := none, atStart := true,
        curStart := none, curEnd := none }
    else acc

/-- The leading-comma/period line-merge loop of `printStatement`
(`lines.splice(i - 1, 2, merged)` with the post-comment skip); the
fuel `lines.length + 1` always suffices because each iteration either
advances the index or shortens the list. -/
def mergeDotLines (post : Option AComment) :
    Nat → Nat → List String × List (Nat × Nat) → List String × List (Nat × Nat)
  | 0, _, lm => lm
  | fuel + 1, i, lm =>
    let lines := lm.1
    let metas := lm.2
    if i < lines.length then
      if post.isSome ∧ i = lines.length - 1 then
        mergeDotLines post fuel (i + 1) (lines, metas)
      else if startsWithDotComma (lines.getD i "") then
        let merged := jsRtrim (lines.getD (i - 1) "") ++
          jsLtrim (lines.getD i "")
        let newLines := lines.take (i - 1) ++ [merged] ++ lines.drop (i + 1)
        let pm := metas.get? (i - 1)
        let cm := metas.get? i
        let ms : Nat := match pm with
          | some m => m.1
          | none => match cm with
            | some m => m.1
            | none => 0
        let me : Nat := match cm with
          | some m => m.2
          | none => match pm with
            | some m => m.2
            | none => 0
        let newMetas := metas.take (i - 1) ++ [(ms, me)] ++ metas.drop (i + 1)
        mergeDotLines post fuel i (newLines, newMetas)
      else mergeDotLines post fuel (i + 1) (lines, metas)
    else (lines, metas)

/-- Attachment of the statement's trailing comment to the rendered line
whose source-line range contains the comment's line, else the last
line. -/
def attachTrailing (o : Options) (lines : List String)
    (metas : List (Nat × Nat)) (c : Option AComment) : List String :=
  match c with
  | none => lines
  | some comment =>
    match metas.findIdx? (fun m => decide (m.1 ≤ comment.loc.startLine) &&
        decide (comment.loc.startLine ≤ m.2)) with
    | some idx => updAt lines idx (fun l => appendComment o l (some comment))
    | none =>
      if lines.length > 0 then
        updAt lines (lines.length - 1) (fun l => appendComment o l (some comment))
      else lines ++ [formatCommentValue o (jsLtrim comment.value)]

/-- Attachment of the deferred post comment to the last line. -/
def attachPost (o : Options) (lines : List String) (post : Option AComment) :
    List String :=
  match post with
  | none => lines
  | some pc =>
    if lines.isEmpty then [formatCommentValue o (jsLtrim pc.value)]
    else updAt lines (lines.length - 1) (fun l => appendComment o l (some pc))

/-- `printStatement` of printers/abap.ts as the list of rendered lines
(the empty statement renders as the single empty line the empty Doc
contributes). -/
def printStatementLines (kws : List String) (o : Options)
    (ov : Nat → Option Nat) (post : Option AComment) (stmt : PStmt) :
    List String :=
  if stmt.tokens.isEmpty ∧ stmt.trailingComment.isNone then [""]
  else
    let indentUnit := max 1 (o.tabWidth.getD 2)
    let baseIndentWidth := if 0 ≤ stmt.indentLevel then
        (Int.toNat stmt.indentLevel) * indentUnit
      else stmt.loc.startColumn
    let indent := spacesStr baseIndentWidth
    let acc0 : RenderAcc := RenderAcc.mk [] [] indent none true none none
    let acc := stmt.tokens.foldl (renderStep kws o ov stmt indent) acc0
    let lm :=
      if 0 < (jsTrim acc.cur).length then
        (acc.lines ++ [jsRtrim acc.cur],
         acc.metas ++ [(acc.curStart.getD stmt.loc.endLine,
                        acc.curEnd.getD stmt.loc.endLine)])
      else if acc.lines.isEmpty then
        ([acc.cur], [(stmt.loc.startLine, stmt.loc.startLine)])
      else (acc.lines, acc.metas)
    let lines := if lm.1.length > 0 then
        updAt lm.1 (lm.1.length - 1) jsRtrim
      else lm.1
    let lm2 := mergeDotLines post (lines.length + 1) 1 (lines, lm.2)
    let lines2 := attachTrailing o lm2.1 lm2.2 stmt.trailingComment
    attachPost o lines2 post

/-! ## The fallback AST (parsers/abap.ts, buildFallbackAst) -/

/-- One fallback statement per source line: a single word token holding
the trimmed line at column 0 (no token when the line is blank), indent
level 0. -/
def fallbackStatement (index : Nat) (line : String) : PStmt :=
  let loc : Loc := Loc.mk (index + 1) 0 (index + 1) line.length
  let token : Tok := Tok.mk index .word (jsTrim line) (jsToUpper (jsTrim line))
    loc false
  PStmt.mk (if jsTrim line = "" then [] else [token]) none none 0 loc

/-- `buildFallbackAst`'s statement list for the document's lines. -/
def buildFallbackStatements (lines : List String) : List PStmt :=
  (List.range lines.length).map (fun i => fallbackStatement i (lines.getD i ""))

theorem dropWhile_idem (p : Char → Bool) :
    ∀ l : List Char, (l.dropWhile p).dropWhile p = l.dropWhile p := by
  intro l
  induction l with
  | nil => rfl
  | cons a as ih =>
    by_cases h : p a = true
    · simp [List.dropWhile_cons, h, ih]
    · rw [Bool.not_eq_true] at h
      simp [List.dropWhile_cons, h]

theorem ltrimL_idem (l : List Char) : ltrimL (ltrimL l) = ltrimL l :=
  dropWhile_idem _ l

theorem rtrimL_idem (l : List Char) : rtrimL (rtrimL l) = rtrimL l := by
  unfold rtrimL
  rw [List.reverse_reverse, ltrimL_idem]

theorem dropWhile_sfx (p : Char → Bool) :
    ∀ l : List Char, l.dropWhile p <:+ l := by
  intro l
  induction l with
  | nil => exact List.suffix_refl []
  | cons a as ih =>
    by_cases h : p a = true
    · simp only [List.dropWhile_cons, h, if_true]
      exact ih.trans (List.suffix_cons a as)
    · rw [Bool.not_eq_true] at h
      simp only [List.dropWhile_cons, h]
      simp

theorem ltrimL_rtrimL_ltrimL (l : List Char) :
    ltrimL (rtrimL (ltrimL l)) = rtrimL (ltrimL l) := by
  have hlm : ltrimL (ltrimL l) = ltrimL l := ltrimL_idem l
  cases hr : rtrimL (ltrimL l) with
  | nil => rfl
  | cons c t =>
    have hpre : rtrimL (ltrimL l) <+: ltrimL l := by
      have hs : ltrimL (ltrimL l).reverse <:+ (ltrimL l).reverse :=
        dropWhile_sfx _ _
      have := hs.reverse
      simpa [rtrimL] using this
    rw [hr] at hpre
    obtain ⟨rest, hrest⟩ := hpre
    have hm : ltrimL l = c :: (t ++ rest) := by
      rw [← hrest]
      simp
    have hhead : isJsWhitespace c = false := by
      by_contra hcon
      rw [Bool.not_eq_false] at hcon
      have h1 : ltrimL (c :: (t ++ rest)) = c :: (t ++ rest) := by
        rw [← hm]
        exact hlm
      have h2 : ltrimL (c :: (t ++ rest)) =
          List.dropWhile isJsWhitespace (t ++ rest) := by
        unfold ltrimL
        simp [List.dropWhile_cons, hcon]
      have hlen := congrArg List.length (h1.symm.trans h2)
      have hle : (List.dropWhile isJsWhitespace (t ++ rest)).length ≤
          (t ++ rest).length := (dropWhile_sfx _ _).length_le
      simp only [List.length_cons] at hlen
      omega
    unfold ltrimL
    simp [List.dropWhile_cons, hhead]

theorem trimL_idem (l : List Char) : trimL (trimL l) = trimL l := by
  unfold trimL
  rw [ltrimL_rtrimL_ltrimL, rtrimL_idem]

theorem rtrimL_trimL (l : List Char) : rtrimL (trimL l) = trimL l := by
  unfold trimL
  rw [rtrimL_idem]

theorem toList_asString (l : List Char) : (List.asString l).toList = l := rfl

theorem jsTrim_idem (s : String) : jsTrim (jsTrim s) = jsTrim s := by
  unfold jsTrim
  rw [toList_asString, trimL_idem]

theorem jsRtrim_jsTrim (s : String) : jsRtrim (jsTrim s) = jsTrim s := by
  unfold jsRtrim jsTrim
  rw [toList_asString, rtrimL_trimL]

theorem adjustStatement_fallback (idx : Nat) (line : String) :
    adjustStatement (fallbackStatement idx line) =
      (fallbackStatement idx line, false) := by
  unfold adjustStatement fallbackStatement adjustClosingBracketsInTokens
  by_cases h : jsTrim line = "" <;> simp [h]

theorem mergePairStep_untouched (i : Nat)
    (acc : List PStmt × List (Nat × AComment)) :
    mergePairStep [] i acc = acc := by
  unfold mergePairStep
  repeat' split
  case isTrue =>
    rcases h1 : acc.1[i]? with _ | c1 <;>
      rcases h2 : acc.1[i + 1]? with _ | c2 <;>
      simp [List.get?_eq_getElem?, h1, h2]
  all_goals simp_all [List.contains]

theorem mergeTrailingComments_untouched (stmts : List PStmt) :
    mergeTrailingComments stmts [] = (stmts, []) := by
  unfold mergeTrailingComments
  generalize List.range (stmts.length - 1) = idxs
  have h : ∀ (ix : List Nat) (acc : List PStmt × List (Nat × AComment)),
      ix.foldl (fun acc i => mergePairStep [] i acc) acc = acc := by
    intro ix
    induction ix with
    | nil => intro acc; rfl
    | cons j js ih =>
      intro acc
      rw [List.foldl_cons, mergePairStep_untouched]
      exact ih acc
  exact h idxs (stmts, [])

theorem string_len_ne_zero (s : String) (h : s ≠ "") : s.length ≠ 0 := by
  intro h0
  apply h
  cases s with
  | mk data =>
    have : data.length = 0 := h0
    have hdata : data = [] := List.length_eq_zero.mp this
    rw [hdata]

theorem fallback_brackets_noop (lines : List String) :
    applyClosingBracketsPosition (buildFallbackStatements lines) =
      (buildFallbackStatements lines, []) := by
  unfold applyClosingBracketsPosition
  by_cases hemp : (buildFallbackStatements lines).isEmpty = true
  · rw [if_pos hemp]
  · rw [if_neg hemp]
    have hadj : (buildFallbackStatements lines).map adjustStatement =
        (buildFallbackStatements lines).map (fun st => (st, false)) := by
      unfold buildFallbackStatements
      simp only [List.map_map]
      apply List.map_congr_left
      intro i _
      exact adjustStatement_fallback i _
    rw [hadj]
    have h1 : ((buildFallbackStatements lines).map
        (fun st => (st, false))).map (fun p => p.1) =
        buildFallbackStatements lines := by
      rw [List.map_map]
      exact (List.map_congr_left (fun a _ => rfl)).trans (List.map_id _)
    have h2 : (List.range ((buildFallbackStatements lines).map
        (fun st => (st, false))).length).filter (fun i =>
          match ((buildFallbackStatements lines).map
            (fun st => (st, false))).get? i with
          | some p => p.2
          | none => false) = [] := by
      apply List.filter_eq_nil.mpr
      intro i _
      rcases h : ((buildFallbackStatements lines).map
          (fun st => (st, false))).get? i with _ | p
      · simp [h]
      · have := List.get?_map (fun st => (st, false))
          (buildFallbackStatements lines) i
        rw [h] at this
        rcases hob : (buildFallbackStatements lines).get? i with _ | st
        · rw [hob] at this
          simp at this
        · rw [hob] at this
          simp at this
          simp [h, this]
    simp only [h1, h2]
    exact mergeTrailingComments_untouched _

theorem empty_append_str (s : String) : "" ++ s = s := by
  cases s with
  | mk data =>
    show String.mk ([] ++ data) = String.mk data
    rw [List.nil_append]

set_option maxHeartbeats 2000000 in
theorem fallback_render_line (kws : List String) (o : Options)
    (ov : Nat → Option Nat) (idx : Nat) (line : String)
    (hkw : kws.contains (jsToUpper (jsTrim line)) = false) :
    printStatementLines kws o ov none (fallbackStatement idx line) =
      [jsTrim line] := by
  by_cases hempty : jsTrim line = ""
  · rw [hempty]
    simp [printStatementLines, fallbackStatement, hempty]
  · have hmem : jsToUpper (jsTrim line) ∉ kws := by
      simpa using hkw
    have hrender : renderToken kws o (Tok.mk idx .word (jsTrim line)
        (jsToUpper (jsTrim line)) (Loc.mk (idx + 1) 0 (idx + 1) line.length)
        false) = jsTrim line := by
      unfold renderToken applyKeywordCase
      simp [hkw, hmem]
    have hne : (jsTrim line).length ≠ 0 := string_len_ne_zero _ hempty
    have hpos : 0 < (jsTrim line).length := Nat.pos_of_ne_zero hne
    unfold printStatementLines
    have hcond : ¬ ((fallbackStatement idx line).tokens.isEmpty = true ∧
        (fallbackStatement idx line).trailingComment.isNone = true) := by
      simp [fallbackStatement, hempty]
    rw [if_neg hcond]
    simp only [fallbackStatement, hempty, if_false, ite_false, List.foldl_cons,
      List.foldl_nil, renderStep, hrender]
    simp only [le_refl, ite_true, if_true, Int.toNat_zero, Nat.zero_mul,
      Nat.cast_zero, sub_self, gt_iff_lt, lt_self_iff_false, if_false,
      ite_false, Bool.false_eq_true]
    have hsz : spacesStr 0 = "" := rfl
    simp only [hne, if_false, ite_false, Option.isNone_none, ite_true, if_true,
      hsz, empty_append_str, jsTrim_idem, hpos, jsRtrim_jsTrim]
    simp [updAt, mergeDotLines, attachTrailing, attachPost, jsRtrim_jsTrim]

/-- Modelled from the spec: keyword-case lookup is "a static dictionary"
supplied by the external collaborator (`ArtifactsABAP.getKeywords()`)
and is declared out of scope; the rules here are parametrized by the
dictionary, and the concrete instances below use a one-element
dictionary holding the genuine ABAP keyword `ENDIF`. -/
def abapKeywordsSample : List String := ["ENDIF"]

/-- C6 (amended) — On the fallback path the repositioning pass leaves
the fallback statements untouched (so the printer renders them as
built), and every line whose trimmed text does not uppercase to a
dictionary keyword renders as exactly its trimmed text — whitespace
trimming is the only change.  (A line that is exactly a keyword is
instead rendered in the configured keyword case; see the
counterexample.) -/
theorem fallback_passthrough (kws : List String) (o : Options)
    (ov : Nat → Option Nat) (lines : List String) (idx : Nat) (line : String)
    (hkw : kws.contains (jsToUpper (jsTrim line)) = false) :
    applyClosingBracketsPosition (buildFallbackStatements lines) =
      (buildFallbackStatements lines, []) ∧
    printStatementLines kws o ov none (fallbackStatement idx line) =
      [jsTrim line] :=
  ⟨fallback_brackets_noop lines, fallback_render_line kws o ov idx line hkw⟩

/-- Closed instance of `fallback_passthrough`: the non-keyword line
`"  write x.  "` renders as its trimmed text, verbatim. -/
theorem fallback_passthrough_witness :
    printStatementLines abapKeywordsSample defaultOptions (fun _ => none) none
      (fallbackStatement 0 "  write x.  ") = ["write x."] := by
  have h := fallback_passthrough abapKeywordsSample defaultOptions
    (fun _ => none) ["  write x.  "] 0 "  write x.  " (by decide)
  exact h.2.trans (by decide)

/-- C6 counterexample — the fallback output is not a verbatim
whitespace-trim-only pass-through: the fallback token keeps role `word`,
so `renderToken` routes it through `applyKeywordCase`, and a line whose
trimmed text is exactly an ABAP keyword (here `endif`) is uppercased to
`ENDIF` instead of being preserved. -/
theorem fallback_not_verbatim :
    printStatementLines abapKeywordsSample defaultOptions (fun _ => none) none
      (fallbackStatement 0 "endif") = ["ENDIF"] ∧
    jsTrim "endif" = "endif" ∧ ("ENDIF" : String) ≠ "endif" := by
  refine ⟨by decide, by decide, by decide⟩

/-! ## Claims about the alignment compressor -/

/-- C2 (amended) — `processSequence` discards runs with fewer than 2
member tokens: its guard is `endIndex - startIndex < 2`, so processing a
run of fewer than two members changes nothing and in particular sets no
space override for any member.  (Two-member runs are processed; see the
counterexample.) -/
theorem short_run_discarded (tl : List TokenPos) (s e : Nat) (isSp : Bool)
    (st : NSState) (h : e - s < 2) :
    processSequence tl s e isSp st = st := by
  unfold processSequence
  rw [if_pos h]

/-- Closed instance of `short_run_discarded`: a one-member run is
discarded. -/
theorem short_run_discarded_witness :
    1 - 0 < 2 ∧
    processSequence [] 0 1 false (NSState.mk [] [] []) = NSState.mk [] [] [] :=
  ⟨by decide, short_run_discarded [] 0 1 false (NSState.mk [] [] []) (by decide)⟩

/-- Two single-line assignments `a    = 1.` / `bb   = 2.` whose `=`
tokens align at column 5 (token ids 0..7, statement ordinals 0 and 1). -/
def c2prog : List PStmt :=
  [PStmt.mk [mkTok 0 .word "a" 1 0, mkTok 1 .punctuation "=" 1 5,
      mkTok 2 .word "1" 1 7, mkTok 3 .punctuation "." 1 8]
    none none 1 (Loc.mk 1 0 1 9),
   PStmt.mk [mkTok 4 .word "bb" 2 0, mkTok 5 .punctuation "=" 2 5,
      mkTok 6 .word "2" 2 7, mkTok 7 .punctuation "." 2 8]
    none none 1 (Loc.mk 2 0 2 9)]

/-- C2 counterexample — a run of exactly 2 member tokens is NOT
discarded: the raw signature 10 (column 5) of `c2prog` holds exactly the
two `=` tokens, `processSequence` on that two-member run assigns both
members overrides, and the full compressor output contains exactly those
overrides.  The code's guard discards only runs shorter than 2, not
shorter than 3. -/
theorem two_member_run_processed :
    (stableSort cmpTokenPosLe
      ((List.lookup 10 (buildXPosMap (collectAll c2prog))).getD [])).length = 2 ∧
    (processSequence (stableSort cmpTokenPosLe
        ((List.lookup 10 (buildXPosMap (collectAll c2prog))).getD []))
      0 2 false (NSState.mk [] [] [])).overrides = [(1, 2), (5, 1)] ∧
    computeNeedlessSpacesOverrides c2prog = [(1, 2), (5, 1)] := by
  refine ⟨by decide, by decide, by decide⟩

theorem computeSpare_go (isSp : Bool) (m : Int) :
    ∀ (run : List TokenPos) (a : Int),
      run.foldl (fun acc tp => match acc with
        | none => some (slackOf isSp m tp)
        | some x => some (min x (slackOf isSp m tp))) (some a) =
      some (run.foldl (fun x tp => min x (slackOf isSp m tp)) a) := by
  intro run
  induction run with
  | nil => intro a; rfl
  | cons tp rest ih =>
    intro a
    simp only [List.foldl_cons]
    exact ih (min a (slackOf isSp m tp))

theorem foldl_min_le (f : TokenPos → Int) :
    ∀ (run : List TokenPos) (a : Int),
      run.foldl (fun x tp => min x (f tp)) a ≤ a ∧
      (∀ tp ∈ run, run.foldl (fun x tp => min x (f tp)) a ≤ f tp) := by
  intro run
  induction run with
  | nil => intro a; exact ⟨le_refl a, by simp⟩
  | cons tp rest ih =>
    intro a
    obtain ⟨h1, h2⟩ := ih (min a (f tp))
    refine ⟨le_trans h1 (min_le_left _ _), ?_⟩
    intro u hu
    rcases List.mem_cons.mp hu with h | h
    · subst h
      exact le_trans h1 (min_le_right _ _)
    · exact h2 u h

theorem foldl_min_attained (f : TokenPos → Int) :
    ∀ (run : List TokenPos) (a : Int),
      run.foldl (fun x tp => min x (f tp)) a = a ∨
      ∃ tp ∈ run, run.foldl (fun x tp => min x (f tp)) a = f tp := by
  intro run
  induction run with
  | nil => intro a; exact Or.inl rfl
  | cons tp rest ih =>
    intro a
    simp only [List.foldl_cons]
    rcases ih (min a (f tp)) with h | ⟨u, hu, h⟩
    · by_cases hle : a ≤ f tp
      · left
        rw [h, min_eq_left hle]
      · right
        exact ⟨tp, List.mem_cons_self _ _, by
          rw [h, min_eq_right (le_of_not_le hle)]⟩
    · right
      exact ⟨u, List.mem_cons_of_mem _ hu, h⟩

theorem computeSpare_is_min (isSp : Bool) (m : Int) (first : TokenPos)
    (rest : List TokenPos) :
    ∃ z, computeSpare isSp m (first :: rest) = some z ∧
      (∀ tp ∈ first :: rest, z ≤ slackOf isSp m tp) ∧
      (∃ tp ∈ first :: rest, z = slackOf isSp m tp) := by
  refine ⟨rest.foldl (fun x tp => min x (slackOf isSp m tp)) (slackOf isSp m first), ?_, ?_, ?_⟩
  · unfold computeSpare
    simp only [List.foldl_cons]
    exact computeSpare_go isSp m rest (slackOf isSp m first)
  · intro tp htp
    obtain ⟨h1, h2⟩ := foldl_min_le (slackOf isSp m) rest (slackOf isSp m first)
    rcases List.mem_cons.mp htp with h | h
    · subst h; exact h1
    · exact h2 tp h
  · rcases foldl_min_attained (slackOf isSp m) rest (slackOf isSp m first) with h | ⟨u, hu, h⟩
    · exact ⟨first, List.mem_cons_self _ _, h⟩
    · exact ⟨u, List.mem_cons_of_mem _ hu, h⟩

theorem processRun_skip (run : List TokenPos) (isSp : Bool) (st : NSState)
    (h : run.all (fun tp => tp.isFirstInLine) = true ∨
      (∀ z, computeSpare isSp (if isSp then maxPrevEndOf run else 0) run = some z →
        z ≤ 0)) :
    (processRun run isSp st).overrides = st.overrides := by
  cases run with
  | nil => rfl
  | cons first rest =>
    rcases hC : computeSpare isSp (if isSp then maxPrevEndOf (first :: rest) else 0)
        (first :: rest) with _ | z
    · simp only [processRun, hC]
      repeat' split
      all_goals rfl
    · have hz0 : ((first :: rest).all fun tp => tp.isFirstInLine) = true ∨ z ≤ 0 := by
        rcases h with hall | hz
        · exact Or.inl hall
        · exact Or.inr (hz z hC)
      simp only [processRun, hC, if_pos hz0]
      repeat' split
      all_goals rfl

/-- C3 (amended) — spare computation and skip condition of
`processSequence`: (1) on any nonempty run `spacesToSpare` is `some z`
where `z` is the minimum over the run's members of the member's slack
(`slackOf`: beyond the mandatory single space for raw column signatures,
beyond the anchor column for special signatures), i.e. `z` is a lower
bound of the slacks and is attained by some member; (2) the run is
skipped — no space override is written — whenever ALL of its members are
line-leading (not, as claimed, whenever any member is), or whenever the
computed spare is ≤ 0. -/
theorem spare_min_and_skip :
    (∀ (isSp : Bool) (m : Int) (first : TokenPos) (rest : List TokenPos),
      ∃ z, computeSpare isSp m (first :: rest) = some z ∧
        (∀ tp ∈ first :: rest, z ≤ slackOf isSp m tp) ∧
        (∃ tp ∈ first :: rest, z = slackOf isSp m tp)) ∧
    (∀ (run : List TokenPos) (isSp : Bool) (st : NSState),
      (run.all (fun tp => tp.isFirstInLine) = true ∨
        (∀ z, computeSpare isSp (if isSp then maxPrevEndOf run else 0) run = some z →
          z ≤ 0)) →
      (processRun run isSp st).overrides = st.overrides) :=
  ⟨computeSpare_is_min, processRun_skip⟩

/-- A concrete all-line-leading position record (the sole token of a
statement line). -/
def tpLead : TokenPos := mkTokenPos 0 none (mkTok 0 .word "x" 1 0)

/-- Closed instance of `spare_min_and_skip`: on the one-member run
`[tpLead]` the spare is attained, and since every member is line-leading
the run is skipped (no override is written). -/
theorem spare_min_and_skip_witness :
    (∃ z, computeSpare false 0 [tpLead] = some z ∧
      (∀ tp ∈ [tpLead], z ≤ slackOf false 0 tp) ∧
      (∃ tp ∈ [tpLead], z = slackOf false 0 tp)) ∧
    (processRun [tpLead] false (NSState.mk [] [] [])).overrides = [] :=
  ⟨spare_min_and_skip.1 false 0 tpLead [],
   spare_min_and_skip.2 [tpLead] false (NSState.mk [] [] []) (Or.inl (by decide))⟩

/-- Statements `x   abc .` (line 1) and `abcd .` (line 2, indented to
column 4): the identifiers `abc` and `abcd` share raw column signature
`2 * 4 = 8`; `abcd` is line-leading, `abc` is not. -/
def c3prog : List PStmt :=
  [PStmt.mk [mkTok 0 .word "x" 1 0, mkTok 1 .word "abc" 1 4,
      mkTok 2 .punctuation "." 1 8]
    none none 1 (Loc.mk 1 0 1 9),
   PStmt.mk [mkTok 3 .word "abcd" 2 4, mkTok 4 .punctuation "." 2 9]
    none none 1 (Loc.mk 2 4 2 10)]

/-- C3 counterexample — a run with a line-leading member is NOT skipped:
the signature-8 run of `c3prog` has the line-leading membership pattern
`[false, true]` (its second member starts its line), yet the compressor
writes the override `(1, 1)` for the run's non-leading member `abc`, so
the run was processed.  The code skips only when ALL members are
line-leading (`hasFirstTokensOnly`), not when any member is. -/
theorem leading_member_run_not_skipped :
    ((stableSort cmpTokenPosLe
        ((List.lookup 8 (buildXPosMap (collectAll c3prog))).getD [])).map
      (fun tp => tp.isFirstInLine)) = [false, true] ∧
    computeNeedlessSpacesOverrides c3prog = [(1, 1)] := by
  refine ⟨by decide, by decide⟩

/-- Boundedness of one override entry relative to the collected
positions: the override is 0, or it is bounded by the overridden
token's original leading-space count. -/
def OvBounded (tps : List TokenPos) (p : Nat × Nat) : Prop :=
  p.2 = 0 ∨ ∃ tp ∈ tps, tp.token.id = p.1 ∧ p.2 ≤ tp.spacesLeft

theorem mem_setOv {l : List (Nat × Nat)} {k v : Nat} {p : Nat × Nat}
    (h : p ∈ setOv l k v) : p = (k, v) ∨ p ∈ l := by
  unfold setOv at h
  split at h
  · rcases List.mem_map.mp h with ⟨q, hq, hfq⟩
    by_cases hk : q.1 = k
    · rw [if_pos hk] at hfq
      exact Or.inl hfq.symm
    · rw [if_neg hk] at hfq
      exact Or.inr (hfq ▸ hq)
  · rcases List.mem_append.mp h with h | h
    · exact Or.inr h
    · exact Or.inl (by simpa using h)

theorem lookup_mem {β : Type} {l : List (Nat × β)} {k : Nat} {v : β}
    (h : List.lookup k l = some v) : (k, v) ∈ l := by
  induction l with
  | nil => simp [List.lookup] at h
  | cons q rest ih =>
    rw [List.lookup] at h
    rcases hb : k == q.1 with _ | _
    · simp only [hb] at h
      exact List.mem_cons_of_mem _ (ih h)
    · simp only [hb] at h
      have hk : k = q.1 := beq_iff_eq.mp hb
      have hv : q.2 = v := Option.some.inj h
      have : (k, v) = q := by
        rw [hk, ← hv]
      exact this ▸ List.mem_cons_self _ _

theorem mem_insertSorted {α : Type} (le : α → α → Bool) (a x : α) :
    ∀ (l : List α), x ∈ insertSorted le a l → x = a ∨ x ∈ l := by
  intro l
  induction l with
  | nil =>
    intro h
    simp [insertSorted] at h
    exact Or.inl h
  | cons b bs ih =>
    intro h
    rw [insertSorted] at h
    split at h
    · rcases List.mem_cons.mp h with h | h
      · exact Or.inl h
      · exact Or.inr h
    · rcases List.mem_cons.mp h with h | h
      · exact Or.inr (h ▸ List.mem_cons_self b bs)
      · rcases ih h with h | h
        · exact Or.inl h
        · exact Or.inr (List.mem_cons_of_mem b h)

theorem mem_stableSort {α : Type} (le : α → α → Bool) (x : α) :
    ∀ (l : List α), x ∈ stableSort le l → x ∈ l := by
  intro l
  induction l with
  | nil => intro h; simp [stableSort] at h
  | cons b bs ih =>
    intro h
    rw [stableSort, List.foldr_cons] at h
    rcases mem_insertSorted le b x _ h with h | h
    · exact h ▸ List.mem_cons_self b bs
    · exact List.mem_cons_of_mem b (ih h)

theorem mem_addXPos {m : List (Nat × List TokenPos)} {key : Nat} {tp : TokenPos}
    {q : Nat × List TokenPos} (h : q ∈ addXPos m key tp) :
    (∃ r ∈ m, q.2 = r.2 ∨ q.2 = r.2 ++ [tp]) ∨ q.2 = [tp] := by
  unfold addXPos at h
  split at h
  · rcases List.mem_map.mp h with ⟨r, hr, hfr⟩
    by_cases hk : r.1 = key
    · rw [if_pos hk] at hfr
      exact Or.inl ⟨r, hr, Or.inr (by rw [← hfr])⟩
    · rw [if_neg hk] at hfr
      exact Or.inl ⟨r, hr, Or.inl (by rw [← hfr])⟩
  · rcases List.mem_append.mp h with h | h
    · exact Or.inl ⟨q, h, Or.inl rfl⟩
    · right
      have hq : q = (key, [tp]) := by simpa using h
      rw [hq]

theorem addXPos_inv {tps : List TokenPos} {m : List (Nat × List TokenPos)}
    {key : Nat} {tp : TokenPos}
    (hm : ∀ r ∈ m, ∀ u ∈ r.2, u ∈ tps) (htp : tp ∈ tps) :
    ∀ r ∈ addXPos m key tp, ∀ u ∈ r.2, u ∈ tps := by
  intro r hr u hu
  rcases mem_addXPos hr with ⟨s, hs, h2 | h2⟩ | h2
  · exact hm s hs u (h2 ▸ hu)
  · rw [h2] at hu
    rcases List.mem_append.mp hu with h | h
    · exact hm s hs u h
    · have : u = tp := by simpa using h
      exact this ▸ htp
  · rw [h2] at hu
    have : u = tp := by simpa using hu
    exact this ▸ htp

theorem foldl_addXPos_inv {tps : List TokenPos} (tp : TokenPos) (htp : tp ∈ tps) :
    ∀ (keys : List Nat) (m : List (Nat × List TokenPos)),
      (∀ r ∈ m, ∀ u ∈ r.2, u ∈ tps) →
      ∀ r ∈ keys.foldl (fun m k => addXPos m k tp) m, ∀ u ∈ r.2, u ∈ tps := by
  intro keys
  induction keys with
  | nil => intro m hm; exact hm
  | cons k ks ih =>
    intro m hm
    rw [List.foldl_cons]
    exact ih _ (addXPos_inv hm htp)

theorem buildXPosMap_inv {tps : List TokenPos} :
    ∀ (l : List TokenPos) (m : List (Nat × List TokenPos)),
      (∀ x ∈ l, x ∈ tps) →
      (∀ r ∈ m, ∀ u ∈ r.2, u ∈ tps) →
      ∀ r ∈ l.foldl (fun m tp => (xKeysOf tp).foldl (fun m k => addXPos m k tp) m) m,
        ∀ u ∈ r.2, u ∈ tps := by
  intro l
  induction l with
  | nil => intro m _ hm; exact hm
  | cons tp rest ih =>
    intro m hl hm
    rw [List.foldl_cons]
    exact ih _ (fun x hx => hl x (List.mem_cons_of_mem _ hx))
      (foldl_addXPos_inv tp (hl tp (List.mem_cons_self _ _)) (xKeysOf tp) m hm)

theorem buildXPosMap_mem {tps : List TokenPos} {key : Nat} {l : List TokenPos}
    (h : List.lookup key (buildXPosMap tps) = some l) : ∀ tp ∈ l, tp ∈ tps := by
  intro tp htp
  exact buildXPosMap_inv tps [] (fun x hx => hx)
    (fun r hr => absurd hr (List.not_mem_nil r)) (key, l) (lookup_mem h) tp htp

theorem mem_runSlice {tl : List TokenPos} {s e : Nat} {tp : TokenPos}
    (h : tp ∈ runSlice tl s e) : tp ∈ tl :=
  List.mem_of_mem_drop (List.mem_of_mem_take h)

theorem overrideLoop_bounded {tps : List TokenPos} {z : Int} (hz : 1 ≤ z) :
    ∀ (run : List TokenPos) (st : NSState),
      (∀ tp ∈ run, tp ∈ tps) →
      (∀ p ∈ st.overrides, OvBounded tps p) →
      ∀ p ∈ (overrideLoop z run st).overrides, OvBounded tps p := by
  intro run
  induction run with
  | nil => intro st _ hst; exact hst
  | cons tp rest ih =>
    intro st hrun hst
    rw [overrideLoop, List.foldl_cons]
    refine ih _ (fun x hx => hrun x (List.mem_cons_of_mem _ hx)) ?_
    intro p hp
    split at hp
    · exact hst p hp
    · split at hp
      · exact hst p hp
      · split at hp
        · exact hst p hp
        · rcases mem_setOv hp with hp | hp
          · right
            refine ⟨tp, hrun tp (List.mem_cons_self _ _), ?_, ?_⟩
            · rw [hp]
            · rw [hp]
              have h0 : (0 : Int) ≤ (tp.spacesLeft : Int) := Int.ofNat_nonneg _
              omega
          · exact hst p hp

theorem processRun_bounded {tps : List TokenPos} :
    ∀ (run : List TokenPos) (isSp : Bool) (st : NSState),
      (∀ tp ∈ run, tp ∈ tps) →
      (∀ p ∈ st.overrides, OvBounded tps p) →
      ∀ p ∈ (processRun run isSp st).overrides, OvBounded tps p := by
  intro run isSp st hrun hst
  cases run with
  | nil => exact hst
  | cons first rest =>
    rcases hC : computeSpare isSp (if isSp then maxPrevEndOf (first :: rest) else 0)
        (first :: rest) with _ | z
    · simp only [processRun, hC]
      intro p hp
      split at hp
      · exact hst p hp
      · split at hp
        · exact hst p hp
        · exact hst p hp
    · by_cases hcond : ((first :: rest).all fun tp => tp.isFirstInLine) = true ∨ z ≤ 0
      · simp only [processRun, hC, if_pos hcond]
        intro p hp
        split at hp
        · exact hst p hp
        · split at hp
          · exact hst p hp
          · exact hst p hp
      · simp only [processRun, hC, if_neg hcond]
        intro p hp
        split at hp
        · exact hst p hp
        · have hz : 1 ≤ z := by
            push_neg at hcond
            obtain ⟨-, h2⟩ := hcond
            omega
          refine overrideLoop_bounded hz (first :: rest) _ hrun ?_ p hp
          intro q hq
          split at hq
          · exact hst q hq
          · exact hst q hq

theorem processSequence_bounded {tps : List TokenPos}
    (tl : List TokenPos) (s e : Nat) (isSp : Bool) (st : NSState)
    (htl : ∀ tp ∈ tl, tp ∈ tps)
    (hst : ∀ p ∈ st.overrides, OvBounded tps p) :
    ∀ p ∈ (processSequence tl s e isSp st).overrides, OvBounded tps p := by
  unfold processSequence
  split
  · exact hst
  · exact processRun_bounded _ isSp st (fun tp htp => htl tp (mem_runSlice htp)) hst

theorem seqLoop_bounded {tps : List TokenPos} (tl : List TokenPos)
    (fol : List (Nat × TokenPos)) (isSp : Bool) (xPos : Nat)
    (htl : ∀ tp ∈ tl, tp ∈ tps) :
    ∀ (fuel s : Nat) (st : NSState),
      (∀ p ∈ st.overrides, OvBounded tps p) →
      ∀ p ∈ (seqLoop tl fol isSp xPos fuel s st).overrides, OvBounded tps p := by
  intro fuel
  induction fuel with
  | zero => intro s st hst; exact hst
  | succ n ih =>
    intro s st hst
    rw [seqLoop]
    rcases hg : tl.get? s with _ | first
    · exact hst
    · refine ih _ _ ?_
      split
      · exact hst
      · exact processSequence_bounded tl _ _ isSp st htl hst

theorem processKey_bounded {tps : List TokenPos}
    (xmap : List (Nat × List TokenPos)) (fol : List (Nat × TokenPos))
    (hx : ∀ key l, List.lookup key xmap = some l → ∀ tp ∈ l, tp ∈ tps)
    (st : NSState) (key : Nat)
    (hst : ∀ p ∈ st.overrides, OvBounded tps p) :
    ∀ p ∈ (processKey xmap fol st key).overrides, OvBounded tps p := by
  unfold processKey
  rcases hl : List.lookup key xmap with _ | l
  · exact hst
  · dsimp only
    split
    · exact hst
    · exact seqLoop_bounded _ fol _ _
        (fun tp htp => hx key l hl tp (mem_stableSort _ tp l htp)) _ _ st hst

theorem keysFold_bounded {tps : List TokenPos}
    (xmap : List (Nat × List TokenPos)) (fol : List (Nat × TokenPos))
    (hx : ∀ key l, List.lookup key xmap = some l → ∀ tp ∈ l, tp ∈ tps) :
    ∀ (keys : List Nat) (st : NSState),
      (∀ p ∈ st.overrides, OvBounded tps p) →
      ∀ p ∈ (keys.foldl (fun st key => processKey xmap fol st key) st).overrides,
        OvBounded tps p := by
  intro keys
  induction keys with
  | nil => intro st hst; exact hst
  | cons k ks ih =>
    intro st hst
    rw [List.foldl_cons]
    exact ih _ (processKey_bounded xmap fol hx st k hst)

theorem condense_bounded {tps : List TokenPos} :
    ∀ (l : List TokenPos) (st : NSState),
      (∀ x ∈ l, x ∈ tps) →
      (∀ p ∈ st.overrides, OvBounded tps p) →
      ∀ p ∈ (condenseStandaloneTokens l st).overrides, OvBounded tps p := by
  intro l
  induction l with
  | nil => intro st _ hst; exact hst
  | cons tp rest ih =>
    intro st hl hst
    rw [condenseStandaloneTokens, List.foldl_cons]
    refine ih _ (fun x hx => hl x (List.mem_cons_of_mem _ hx)) ?_
    intro p hp
    split at hp
    · exact hst p hp
    · split at hp
      · exact hst p hp
      · split at hp
        · exact hst p hp
        · split at hp
          · exact hst p hp
          · split at hp
            · exact hst p hp
            · rcases mem_setOv hp with hp | hp
              · right
                refine ⟨tp, hl tp (List.mem_cons_self _ _), ?_, ?_⟩
                · rw [hp]
                · rw [hp]
                  omega
              · exact hst p hp

theorem eboFold_bounded {tps : List TokenPos} (tokens : List Tok) :
    ∀ (idxs : List Nat) (ov : List (Nat × Nat)),
      (∀ p ∈ ov, OvBounded tps p) →
      ∀ p ∈ idxs.foldl (fun ov index =>
        match tokens.get? index, tokens.get? (index + 1) with
        | some current, some next =>
          if ! isMatchingBracketPair current.text next.text then ov
          else if current.loc.endLine ≠ next.loc.startLine then ov
          else if (next.loc.startColumn : Int) - current.loc.endColumn - 1 > 0 then
            setOv ov next.id 0
          else ov
        | _, _ => ov) ov, OvBounded tps p := by
  intro idxs
  induction idxs with
  | nil => intro ov hov; exact hov
  | cons i rest ih =>
    intro ov hov
    rw [List.foldl_cons]
    refine ih _ ?_
    intro p hp
    rcases h1 : tokens.get? i with _ | c
    · simp only [h1] at hp
      exact hov p hp
    · rcases h2 : tokens.get? (i + 1) with _ | n
      · simp only [h1, h2] at hp
        exact hov p hp
      · simp only [h1, h2] at hp
        split at hp
        · exact hov p hp
        · split at hp
          · exact hov p hp
          · split at hp
            · rcases mem_setOv hp with hp | hp
              · exact Or.inl (by rw [hp])
              · exact hov p hp
            · exact hov p hp

theorem ebo_tokens_bounded {tps : List TokenPos} (tokens : List Tok)
    (ov : List (Nat × Nat)) (hov : ∀ p ∈ ov, OvBounded tps p) :
    ∀ p ∈ applyEmptyBracketOverridesToTokens tokens ov, OvBounded tps p := by
  unfold applyEmptyBracketOverridesToTokens
  exact eboFold_bounded tokens _ ov hov

theorem ebo_chain_bounded {tps : List TokenPos} :
    ∀ (entries : List (Option (List Tok))) (ov : List (Nat × Nat)),
      (∀ p ∈ ov, OvBounded tps p) →
      ∀ p ∈ entries.foldl (fun ov e =>
        match e with
        | some toks => applyEmptyBracketOverridesToTokens toks ov
        | none => ov) ov, OvBounded tps p := by
  intro entries
  induction entries with
  | nil => intro ov hov; exact hov
  | cons e rest ih =>
    intro ov hov
    rw [List.foldl_cons]
    refine ih _ ?_
    rcases e with _ | toks
    · exact hov
    · exact ebo_tokens_bounded toks ov hov

theorem ebo_bounded {tps : List TokenPos} :
    ∀ (stmts : List PStmt) (ov : List (Nat × Nat)),
      (∀ p ∈ ov, OvBounded tps p) →
      ∀ p ∈ applyEmptyBracketOverrides stmts ov, OvBounded tps p := by
  intro stmts
  induction stmts with
  | nil => intro ov hov; exact hov
  | cons st rest ih =>
    intro ov hov
    rw [applyEmptyBracketOverrides, List.foldl_cons]
    refine ih _ ?_
    rcases st.chain with _ | entries
    · exact ebo_tokens_bounded st.tokens ov hov
    · exact ebo_chain_bounded entries _ (ebo_tokens_bounded st.tokens ov hov)

theorem computeNeedlessSpacesOverrides_bounded (stmts : List PStmt) :
    ∀ p ∈ computeNeedlessSpacesOverrides stmts, OvBounded (collectAll stmts) p := by
  simp only [computeNeedlessSpacesOverrides]
  split
  · intro p hp
    exact absurd hp (List.not_mem_nil p)
  · refine ebo_bounded stmts _ ?_
    refine condense_bounded (collectAll stmts) _ (fun x hx => hx) ?_
    refine keysFold_bounded _ _ (fun key l hl => buildXPosMap_mem hl) _ _ ?_
    intro p hp
    exact absurd hp (List.not_mem_nil p)

/-- Opening parenthesis token of `c1prog` (`(` at column 1). -/
def c1open : Tok := mkTok 1 .punctuation "(" 1 1

/-- Closing parenthesis token of `c1prog` (`)` at column 4, two spaces
after the opener). -/
def c1close : Tok := mkTok 2 .punctuation ")" 1 4

/-- The single statement `x(  ).`: an empty bracket pair with stray
interior space. -/
def c1prog : List PStmt :=
  [PStmt.mk [mkTok 0 .word "x" 1 0, c1open, c1close, mkTok 3 .punctuation "." 1 5]
    none none 1 (Loc.mk 1 0 1 6)]

/-- C1 (amended) — (1) the renderer returns a present needless-spaces
override verbatim: `getSpacesBeforeToken` yields exactly the override
value, NOT `max(override, ruleMinimum)`, so an override below the
mandatory single space is emitted as-is; (2) every override the
compressor computes is either 0 (the empty-bracket-pair overrides) or
bounded by the overridden token's original leading-space count
(`spacesLeft`), so compression never increases the spacing before a
token relative to the source. -/
theorem override_unclamped_and_bounded :
    (∀ (ov : Nat → Option Nat) (token : Tok) (previous : Option Tok)
        (o : Options) (v : Nat), ov token.id = some v →
      getSpacesBeforeToken ov token previous o = v) ∧
    (∀ (stmts : List PStmt), ∀ p ∈ computeNeedlessSpacesOverrides stmts,
      p.2 = 0 ∨ ∃ tp ∈ collectAll stmts, tp.token.id = p.1 ∧ p.2 ≤ tp.spacesLeft) := by
  constructor
  · intro ov token previous o v h
    unfold getSpacesBeforeToken
    simp only [h]
  · intro stmts
    exact computeNeedlessSpacesOverrides_bounded stmts

/-- Closed instance of `override_unclamped_and_bounded`: an override of
3 is emitted verbatim for the closing parenthesis, and the override
entry `(2, 0)` computed for `c1prog` satisfies the bound (it is 0). -/
theorem override_unclamped_and_bounded_witness :
    getSpacesBeforeToken (fun _ => some 3) c1close (some c1open) defaultOptions = 3 ∧
    ((2, 0).2 = 0 ∨
      ∃ tp ∈ collectAll c1prog, tp.token.id = (2, 0).1 ∧ (2, 0).2 ≤ tp.spacesLeft) :=
  ⟨override_unclamped_and_bounded.1 (fun _ => some 3) c1close (some c1open)
      defaultOptions 3 rfl,
   override_unclamped_and_bounded.2 c1prog (2, 0) (by decide)⟩

/-- C1 counterexample — the renderer does NOT emit
`max(override, ruleMinimum)` leading spaces, and compression CAN go
below the mandatory single separating space: on `x(  ).` the compressor
assigns the closing parenthesis the override 0; the base rule demands a
space before `)` (`needsSpaceBefore` is true, so the rule minimum is 1),
yet the renderer emits 0 spaces, not `max 0 1 = 1`. -/
theorem override_below_minimum :
    computeNeedlessSpacesOverrides c1prog = [(2, 0)] ∧
    needsSpaceBefore c1close (some c1open) defaultOptions = true ∧
    getSpacesBeforeToken
      (fun id => List.lookup id (computeNeedlessSpacesOverrides c1prog))
      c1close (some c1open) defaultOptions = 0 ∧
    getSpacesBeforeToken
      (fun id => List.lookup id (computeNeedlessSpacesOverrides c1prog))
      c1close (some c1open) defaultOptions ≠
      max 0 (if needsSpaceBefore c1close (some c1open) defaultOptions then 1 else 0) := by
  refine ⟨by decide, by decide, by decide, by decide⟩
